import Mathlib

/-!
Verification of the mulint static analyzer (a Go linter detecting reentrant
mutex acquisition and missing lock releases).  The definitions below are a
shallow embedding of the analyzer's own code:

* selector strings and `SplitSelector` (helpers.go),
* the conditional-lock registry and `ShouldSkipLock` (report.go),
* the memoized transitive-lock search `hasTransitiveLock` (analyzer.go),
  rendered with an explicit fuel parameter so that divergence of the Go
  recursion is expressible as "no amount of fuel suffices",
* the lock tracker with its scope heap (scope.go) — Go stores `*MutexScope`
  pointers in its maps, so the embedding separates an association of
  selectors to scope identifiers from a heap of scope records,
* the wrapper registry (wrappers.go), the branch-sensitive return tracker
  (branch.go) and the analyzer's finding recording (analyzer.go).

Go AST nodes are embedded by the mutually inductive types `MExpr`/`MStmt`,
which keep exactly the shape distinctions the analyzer inspects.  Output of
the type checker (`GetCallInfo`) is not syntactic, so call expressions carry
their resolved fully qualified name as an oracle field.
-/

namespace Mulint

/-- Fully qualified name of a function or method (type FQN in the source). -/
abbrev FQN := String

/-- `WrapperInfo` from scope.go: the wrapper method through which a lock was
acquired, and the position of the `Lock()` call inside the wrapper. -/
structure WrapperInfo where
  fqn : FQN
  lockPos : Nat
  deriving Repr, DecidableEq

/-- Character-level worker for `SplitSelector`: split at the first dot. -/
def splitSelectorAux : List Char → Option (List Char × List Char)
  | [] => none
  | c :: rest =>
    if c = '.' then some ([], rest)
    else match splitSelectorAux rest with
      | some (l, r) => some (c :: l, r)
      | none => none

/-- `SplitSelector` from helpers.go: split a selector string into root and
field at the first dot; a dot-free string splits to `(s, "")`. -/
def splitSelector (s : String) : String × String :=
  match splitSelectorAux s.toList with
  | some (l, r) => (⟨l⟩, ⟨r⟩)
  | none => (s, "")

/-- `ConditionalLock` from report.go. -/
structure ConditionalLock where
  paramIndex : Nat
  paramName : String
  selector : String
  negated : Bool
  deriving Repr, DecidableEq

/-- The acquisition method names recognized by the analyzer (scope.go). -/
def lockMethods : List String := ["RLock", "Lock"]

/-- The release method names recognized by the analyzer (scope.go). -/
def unlockMethods : List String := ["RUnlock", "Unlock"]

mutual

/-- Embedded Go expressions, keeping the shapes the analyzer distinguishes:
identifiers, selector expressions, call expressions and function literals.
`pos` on a call is its source position; `resolved` is the output of
`GetCallInfo`/`FromCallInfo` (a type-checker oracle attached to the node). -/
inductive MExpr where
  | ident (name : String)
  | selE (x : MExpr) (field : String)
  | callE (pos : Nat) (fn : MExpr) (args : List MExpr) (resolved : Option FQN)
  | funcLitE (body : List MStmt)
  | otherE

/-- Embedded Go statements, with the constructors the trackers inspect.
`CaseClause`/`CommClause` are statements in go/ast, so they are here too;
 a switch body is a list expected to hold clause statements. -/
inductive MStmt where
  | exprStmt (e : MExpr)
  | deferStmt (call : MExpr)
  | goStmt (call : MExpr)
  | returnStmt (pos : Nat) (results : List MExpr)
  | assignStmt (lhs rhs : List MExpr)
  | ifStmt (init : Option MStmt) (cond : MExpr) (body : List MStmt) (els : Option MStmt)
  | forStmt (init : Option MStmt) (cond : Option MExpr) (post : Option MStmt) (body : List MStmt)
  | rangeStmt (x : MExpr) (body : List MStmt)
  | switchStmt (init : Option MStmt) (tag : Option MExpr) (body : List MStmt)
  | typeSwitchStmt (init : Option MStmt) (assign : Option MStmt) (body : List MStmt)
  | selectStmt (body : List MStmt)
  | caseClause (body : List MStmt)
  | commClause (body : List MStmt)
  | blockStmt (body : List MStmt)
  | otherStmt

end

/-- An AST node as stored in a scope's node list (Go's `ast.Node`). -/
inductive MNode where
  | stmt (s : MStmt)
  | expr (e : MExpr)

mutual

/-- `StrExpr` from helpers.go: canonical textual rendering of an expression
(selector identity is textual). -/
def strExpr : MExpr → String
  | .ident n => n
  | .selE x f => strExpr x ++ "." ++ f
  | .callE _ fn args _ => strExpr fn ++ "(" ++ strExprList args ++ ")"
  | .funcLitE _ => "funcLit"
  | .otherE => "?"

/-- Rendering of an argument list, comma separated. -/
def strExprList : List MExpr → String
  | [] => ""
  | [e] => strExpr e
  | e :: rest => strExpr e ++ ", " ++ strExprList rest

end

/-- Position of an expression; only call positions are consumed downstream. -/
def exprPos : MExpr → Nat
  | .callE p _ _ _ => p
  | _ => 0

/-- `stmt.Pos()`: for expression and defer statements this is the position of
the embedded expression; return statements carry their own position. -/
def stmtPos : MStmt → Nat
  | .exprStmt e => exprPos e
  | .deferStmt c => exprPos c
  | .goStmt c => exprPos c
  | .returnStmt p _ => p
  | _ => 0

/-- `SubjectForCall` from helpers.go, on an expression node: the receiver
`x` when the expression is a call `x.M(...)` with `M` among `names`. -/
def subjectForCall (names : List String) : MExpr → Option MExpr
  | .callE _ (.selE x f) _ _ => if names.contains f then some x else none
  | _ => none

/-- `SubjectForCall` on a statement node: helpers.go accepts an expression
statement wrapping a call; every other statement yields none. -/
def subjectForCallStmt (names : List String) : MStmt → Option MExpr
  | .exprStmt e => subjectForCall names e
  | _ => none

/-- `subjectForLockCall` from scope.go restricted to statements. -/
def subjectForLockCallStmt : MStmt → Option MExpr :=
  subjectForCallStmt lockMethods

/-- `subjectForUnlockCall` from scope.go restricted to statements. -/
def subjectForUnlockCallStmt : MStmt → Option MExpr :=
  subjectForCallStmt unlockMethods

/-- Scan of a deferred closure body for a release call (scope.go). -/
def firstUnlockSubjectIn : List MStmt → Option MExpr
  | [] => none
  | s :: rest =>
    match subjectForCallStmt unlockMethods s with
    | some e => some e
    | none => firstUnlockSubjectIn rest

/-- `subjectForDeferUnlockCall` from scope.go: a defer of a direct release,
or a defer of a closure whose body contains a release. -/
def subjectForDeferUnlockCallStmt : MStmt → Option MExpr
  | .deferStmt c =>
    match subjectForCall unlockMethods c with
    | some e => some e
    | none =>
      match c with
      | .callE _ (.funcLitE body) _ _ => firstUnlockSubjectIn body
      | _ => none
  | _ => none

/-- `RootSelector` from helpers.go: descend the left spine of a selector
expression's receiver to its base identifier. -/
def rootSelectorAux : MExpr → Option String
  | .ident n => some n
  | .selE x _ => rootSelectorAux x
  | _ => none

/-- `SelectorExpr` from helpers.go: the callee of a call when it is a
selector expression, as a (receiver, method-name) pair. -/
def selectorExprOfCall : MExpr → Option (MExpr × String)
  | .callE _ (.selE x f) _ _ => some (x, f)
  | _ => none

/-- First call expression in a right-hand-side list (helpers.go `CallExpr`
on an assignment). -/
def firstCallInList : List MExpr → Option MExpr
  | [] => none
  | e :: rest =>
    match e with
    | .callE .. => some e
    | _ => firstCallInList rest

/-- `CallExpr` from helpers.go on a statement: the embedded call of an
expression statement or of an assignment's right-hand side. -/
def callExprOfStmt : MStmt → Option MExpr
  | .exprStmt e =>
    match e with
    | .callE .. => some e
    | _ => none
  | .assignStmt _ rhs => firstCallInList rhs
  | _ => none

/-- `GetCallInfo` composed with `FromCallInfo`: the resolved FQN oracle
carried by the call node (type information is external to the syntax). -/
def getCallInfo : MExpr → Option FQN
  | .callE _ _ _ r => r
  | _ => none

/-- `MutexScope` from scope.go: a region of one function during which a
selector is held. Go passes these around as `*MutexScope`; the embedding
keeps the records in a heap and the trackers hold scope identifiers. -/
structure MutexScope where
  selector : String
  pos : Nat
  nodes : List MNode
  unlocked : Bool
  wrapper : Option WrapperInfo

/-- The heap of allocated `MutexScope` records; a scope id is an index. -/
abbrev Heap := List MutexScope

/-- Read a scope record from the heap. -/
def getScope (h : Heap) (i : Nat) : Option MutexScope := h.get? i

/-- Mutate the scope record at `i` in place (Go: through the pointer). -/
def modifyScope (h : Heap) (i : Nat) (f : MutexScope → MutexScope) : Heap :=
  match h.get? i with
  | some s => h.set i (f s)
  | none => h

/-- `NewMutexScope` from scope.go. -/
def newMutexScope (selector : String) (pos : Nat) : MutexScope :=
  ⟨selector, pos, [], false, none⟩

/-- `NewMutexScopeWithWrapper` from scope.go. -/
def newMutexScopeWithWrapper (selector : String) (pos : Nat)
    (w : WrapperInfo) : MutexScope :=
  ⟨selector, pos, [], false, some w⟩

/-- `MutexScope.Add`: append a node to the scope's node list. -/
def scopeAdd (h : Heap) (i : Nat) (n : MNode) : Heap :=
  modifyScope h i (fun s => { s with nodes := s.nodes ++ [n] })

/-- `MutexScope.markUnlocked`: flip the scope's unlocked flag. -/
def markUnlocked (h : Heap) (i : Nat) : Heap :=
  modifyScope h i (fun s => { s with unlocked := true })

/-- `LockTracker` from scope.go: ongoing scopes per selector, selectors with
deferred releases, and the finished scopes, all referring into the heap. -/
structure LockTracker where
  onGoing : List (String × Nat)
  defers : List String
  finished : List Nat

/-- `NewLockTracker`. -/
def newLockTracker : LockTracker := ⟨[], [], []⟩

/-- Remove a selector's entry from an ongoing map (Go `delete`). -/
def eraseSel (m : List (String × Nat)) (k : String) : List (String × Nat) :=
  m.filter (fun p => p.1 ≠ k)

/-- `LockTracker.Clone` from scope.go: copies the `onGoing` and `defers`
maps and starts an empty `finished` list.  The map entries still name the
same heap cells — Go copies the `*MutexScope` pointers, not the records. -/
def LockTracker.clone (t : LockTracker) : LockTracker :=
  { onGoing := t.onGoing, defers := t.defers, finished := [] }

/-- `LockTracker.AddToOngoing`: append a node to every ongoing scope. -/
def addToOngoing (t : LockTracker) (h : Heap) (n : MNode) : Heap :=
  t.onGoing.foldl (fun h p => scopeAdd h p.2 n) h

/-- `LockTracker.addExprToOngoing`. -/
def addExprToOngoing (t : LockTracker) (h : Heap) (e : MExpr) : Heap :=
  addToOngoing t h (.expr e)

/-- `LockTracker.addStatementToOngoing` from scope.go: compound statements
contribute only their prefix parts (init, condition, tag, iteree); plain
statements are added whole.  `for` post-clauses are never added. -/
def addStatementToOngoing (t : LockTracker) (h : Heap) : MStmt → Heap
  | .ifStmt init cond _ _ =>
    let h1 := match init with
      | some i => addToOngoing t h (.stmt i)
      | none => h
    addExprToOngoing t h1 cond
  | .forStmt init cond _ _ =>
    let h1 := match init with
      | some i => addToOngoing t h (.stmt i)
      | none => h
    match cond with
    | some c => addExprToOngoing t h1 c
    | none => h1
  | .rangeStmt x _ => addExprToOngoing t h x
  | .switchStmt init tag _ =>
    let h1 := match init with
      | some i => addToOngoing t h (.stmt i)
      | none => h
    match tag with
    | some tg => addExprToOngoing t h1 tg
    | none => h1
  | .typeSwitchStmt init assign _ =>
    let h1 := match init with
      | some i => addToOngoing t h (.stmt i)
      | none => h
    match assign with
    | some a => addToOngoing t h1 (.stmt a)
    | none => h1
  | .selectStmt _ => h
  | .blockStmt _ => h
  | s => addToOngoing t h (.stmt s)

/-- `LockTracker.EndBlock` from scope.go: close every ongoing scope with a
deferred release as unlocked, move the rest to `finished` still locked,
then clear `onGoing` and `defers`. -/
def endBlock (t : LockTracker) (h : Heap) : LockTracker × Heap :=
  let step := t.defers.foldl
    (fun (acc : LockTracker × Heap) selector =>
      match acc.1.onGoing.lookup selector with
      | some i =>
        ({ acc.1 with
            onGoing := eraseSel acc.1.onGoing selector,
            finished := acc.1.finished ++ [i] },
          markUnlocked acc.2 i)
      | none => acc)
    (t, h)
  let t1 := step.1
  let t2 := { t1 with finished := t1.finished ++ t1.onGoing.map Prod.snd }
  ({ t2 with onGoing := [], defers := [] }, step.2)

/-- Step 2 of `LockTracker.Track`: a direct acquisition opens an ongoing
scope at the statement's position unless the selector already has one. -/
def trackLockStep (t : LockTracker) (h : Heap) (stmt : MStmt) :
    LockTracker × Heap :=
  match subjectForLockCallStmt stmt with
  | some e =>
    let selector := strExpr e
    match t.onGoing.lookup selector with
    | some _ => (t, h)
    | none =>
      ({ t with onGoing := t.onGoing ++ [(selector, h.length)] },
        h ++ [newMutexScope selector (stmtPos stmt)])
  | none => (t, h)

/-- Step 3 of `LockTracker.Track`: a deferred release marks its selector
in `defers`. -/
def trackDeferStep (t : LockTracker) (stmt : MStmt) : LockTracker :=
  match subjectForDeferUnlockCallStmt stmt with
  | some e =>
    let selector := strExpr e
    if t.defers.contains selector then t
    else { t with defers := t.defers ++ [selector] }
  | none => t

/-- Step 4 of `LockTracker.Track`: a direct release closes the matching
ongoing scope — marked unlocked and moved to `finished`. -/
def trackUnlockStep (t : LockTracker) (h : Heap) (stmt : MStmt) :
    LockTracker × Heap :=
  match subjectForUnlockCallStmt stmt with
  | some e =>
    let selector := strExpr e
    match t.onGoing.lookup selector with
    | some i =>
      ({ t with
          onGoing := eraseSel t.onGoing selector,
          finished := t.finished ++ [i] },
        markUnlocked h i)
    | none => (t, h)
  | none => (t, h)

mutual

/-- `LockTracker.Track` from scope.go: one statement of the stream.  Adds
the statement (or its prefix parts) to ongoing scopes, then handles direct
acquisition, deferred release and direct release, then recurses into
nested blocks via `trackNested`. -/
def track (t : LockTracker) (h : Heap) (stmt : MStmt) (addOngoing : Bool) :
    LockTracker × Heap :=
  let h1 := if addOngoing then addStatementToOngoing t h stmt else h
  let acc2 := trackLockStep t h1 stmt
  let t3 := trackDeferStep acc2.1 stmt
  let acc4 := trackUnlockStep t3 acc2.2 stmt
  trackNested acc4.1 acc4.2 stmt addOngoing

/-- `LockTracker.trackNestedStatements` from scope.go: branches of `if`,
and each `switch`/type-switch/`select` clause, run on a clone whose
finished scopes are merged back; `for`, `range` and plain blocks run on
the tracker itself. -/
def trackNested (t : LockTracker) (h : Heap) (stmt : MStmt)
    (addOngoing : Bool) : LockTracker × Heap :=
  match stmt with
  | .ifStmt _ _ body els =>
    let c1 := t.clone
    let r1 := trackList c1 h body addOngoing
    let r2 := endBlock r1.1 r1.2
    let t1 := { t with finished := t.finished ++ r2.1.finished }
    (match els with
      | some e =>
        let c2 := t1.clone
        let r3 :=
          match e with
          | .blockStmt l => trackList c2 r2.2 l addOngoing
          | .ifStmt i c b el => track c2 r2.2 (.ifStmt i c b el) addOngoing
          | _ => (c2, r2.2)
        let r4 := endBlock r3.1 r3.2
        ({ t1 with finished := t1.finished ++ r4.1.finished }, r4.2)
      | none => (t1, r2.2))
  | .forStmt _ _ _ body => trackList t h body addOngoing
  | .rangeStmt _ body => trackList t h body addOngoing
  | .switchStmt _ _ body => trackCases t h body addOngoing
  | .typeSwitchStmt _ _ body => trackCases t h body addOngoing
  | .selectStmt body => trackCommCases t h body addOngoing
  | .blockStmt body => trackList t h body addOngoing
  | _ => (t, h)

/-- Track a statement list in order (the loops of scope.go). -/
def trackList (t : LockTracker) (h : Heap) (stmts : List MStmt)
    (addOngoing : Bool) : LockTracker × Heap :=
  match stmts with
  | [] => (t, h)
  | s :: rest =>
    let r := track t h s addOngoing
    trackList r.1 r.2 rest addOngoing

/-- Clause loop of a switch or type-switch: each `CaseClause` body runs on
a clone which is finalized and merged; other statements are skipped. -/
def trackCases (t : LockTracker) (h : Heap) (clauses : List MStmt)
    (addOngoing : Bool) : LockTracker × Heap :=
  match clauses with
  | [] => (t, h)
  | c :: rest =>
    match c with
    | .caseClause body =>
      let c1 := t.clone
      let r1 := trackList c1 h body addOngoing
      let r2 := endBlock r1.1 r1.2
      trackCases { t with finished := t.finished ++ r2.1.finished } r2.2
        rest addOngoing
    | _ => trackCases t h rest addOngoing

/-- Clause loop of a `select`: same discipline for `CommClause`s. -/
def trackCommCases (t : LockTracker) (h : Heap) (clauses : List MStmt)
    (addOngoing : Bool) : LockTracker × Heap :=
  match clauses with
  | [] => (t, h)
  | c :: rest =>
    match c with
    | .commClause body =>
      let c1 := t.clone
      let r1 := trackList c1 h body addOngoing
      let r2 := endBlock r1.1 r1.2
      trackCommCases { t with finished := t.finished ++ r2.1.finished } r2.2
        rest addOngoing
    | _ => trackCommCases t h rest addOngoing

end

/-- `LockTracker.StartLock` from scope.go: open a scope unless the selector
is already ongoing. -/
def startLock (t : LockTracker) (h : Heap) (selector : String) (pos : Nat) :
    LockTracker × Heap :=
  match t.onGoing.lookup selector with
  | some _ => (t, h)
  | none =>
    ({ t with onGoing := t.onGoing ++ [(selector, h.length)] },
      h ++ [newMutexScope selector pos])

/-- `LockTracker.StartLockWithWrapper` from scope.go. -/
def startLockWithWrapper (t : LockTracker) (h : Heap) (selector : String)
    (pos : Nat) (w : WrapperInfo) : LockTracker × Heap :=
  match t.onGoing.lookup selector with
  | some _ => (t, h)
  | none =>
    ({ t with onGoing := t.onGoing ++ [(selector, h.length)] },
      h ++ [newMutexScopeWithWrapper selector pos w])

/-- `LockTracker.EndLock` from scope.go. -/
def endLock (t : LockTracker) (h : Heap) (selector : String) :
    LockTracker × Heap :=
  match t.onGoing.lookup selector with
  | some i =>
    ({ t with
        onGoing := eraseSel t.onGoing selector,
        finished := t.finished ++ [i] },
      markUnlocked h i)
  | none => (t, h)

/-- `LockTracker.AddDeferredUnlock` from scope.go. -/
def addDeferredUnlock (t : LockTracker) (selector : String) : LockTracker :=
  if t.defers.contains selector then t
  else { t with defers := t.defers ++ [selector] }

/-- `LockTracker.Scopes`: the finished scope records, read off the heap. -/
def scopesOf (t : LockTracker) (h : Heap) : List MutexScope :=
  t.finished.filterMap (getScope h)

/-- `LockTracker.HasScopes`. -/
def hasScopes (t : LockTracker) : Bool := !t.finished.isEmpty

/-- `Visitor.analyzeDirectLocks` from visitor.go: run the tracker over a
function body with `addToOngoing = true`, then `EndBlock`. -/
def analyzeDirectLocks (body : List MStmt) : LockTracker × Heap :=
  let r := trackList newLockTracker [] body true
  endBlock r.1 r.2

/-- `extractBoolLiteral` from report.go: Go renders `true`/`false` as
identifiers, so only those two identifiers are literals. -/
def extractBoolLiteral : MExpr → Option Bool
  | .ident n =>
    if n = "true" then some true
    else if n = "false" then some false
    else none
  | _ => none

/-- `ConditionalLockRegistry` from report.go, keyed by FQN. -/
structure ConditionalLockRegistry where
  locks : List (FQN × List ConditionalLock)

/-- `ConditionalLockRegistry.Get`: map access, absent keys give `[]`. -/
def ConditionalLockRegistry.get (r : ConditionalLockRegistry) (fqn : FQN) :
    List ConditionalLock :=
  (r.locks.lookup fqn).getD []

/-- Argument list of a call expression. -/
def callArgs : MExpr → List MExpr
  | .callE _ _ args _ => args
  | _ => []

/-- One iteration of the `ShouldSkipLock` loop: does this conditional lock
statically close the gate at this call site? -/
def condLockSkips (lockSelector : String) (args : List MExpr)
    (cl : ConditionalLock) : Bool :=
  (cl.selector == lockSelector) &&
    match args.get? cl.paramIndex with
    | some arg =>
      match extractBoolLiteral arg with
      | some v => if cl.negated then v else !v
      | none => false
    | none => false

/-- `ConditionalLockRegistry.ShouldSkipLock` from report.go: true when some
conditional lock of `fqn` with the held selector receives a boolean literal
argument proving its gate closed. -/
def shouldSkipLock (r : ConditionalLockRegistry) (fqn : FQN) (call : MExpr)
    (lockSelector : String) : Bool :=
  let condLocks := r.get fqn
  if condLocks.isEmpty then false
  else condLocks.any (condLockSkips lockSelector (callArgs call))

/-- The analyzer's per-package collection of finished scopes, by FQN
(`Analyzer.scopes`, with `Scopes()` already resolved through the heap). -/
abbrev ScopeMap := List (FQN × List MutexScope)

/-- The recorded call graph `Analyzer.calls`. -/
abbrev CallGraph := List (FQN × List FQN)

mutual

/-- `Analyzer.hasTransitiveLock` from analyzer.go with an explicit fuel
bound: the Go recursion is unbounded, so `none` means the computation was
still running when the fuel ran out.  The memo `checked` is threaded the
way Go mutates its shared map: consulted on entry, written only after a
function's own exploration finishes. -/
def hasTransitiveLockFuel (scopes : ScopeMap) (calls : CallGraph)
    (scope : MutexScope) :
    Nat → FQN → List (FQN × Bool) → Option (Bool × List (FQN × Bool))
  | 0, _, _ => none
  | fuel + 1, fqn, checked =>
    match checked.lookup fqn with
    | some r => some (r, checked)
    | none =>
      let direct :=
        match scopes.lookup fqn with
        | some scs => scs.any (fun s => s.selector == scope.selector)
        | none => false
      if direct then some (true, (fqn, true) :: checked)
      else
        match calls.lookup fqn with
        | none => some (false, (fqn, false) :: checked)
        | some cs =>
          match transitiveCallees scopes calls scope fuel cs checked with
          | none => none
          | some (true, checked1) => some (true, (fqn, true) :: checked1)
          | some (false, checked1) => some (false, (fqn, false) :: checked1)

/-- The callee loop of `hasTransitiveLock`: try each recorded callee in
order, short-circuiting on the first positive answer. -/
def transitiveCallees (scopes : ScopeMap) (calls : CallGraph)
    (scope : MutexScope) :
    Nat → List FQN → List (FQN × Bool) → Option (Bool × List (FQN × Bool))
  | _, [], checked => some (false, checked)
  | fuel, c :: rest, checked =>
    match hasTransitiveLockFuel scopes calls scope fuel c checked with
    | none => none
    | some (true, checked1) => some (true, checked1)
    | some (false, checked1) =>
      transitiveCallees scopes calls scope fuel rest checked1

end

/-- `LintError` from report.go (reentrant acquisition finding). -/
structure LintError where
  origin : Nat
  secondLock : Nat
  wrapper : Option WrapperInfo
  deriving Repr, DecidableEq

/-- `BranchLockInfo` from branch tracking: a lock's state at a point. -/
structure BranchLockInfo where
  selector : String
  pos : Nat
  wrapper : Option WrapperInfo
  deriving Repr, DecidableEq

/-- `MissingUnlock`: a return reached while a lock is held. -/
structure MissingUnlock where
  lockInfo : BranchLockInfo
  returnPos : Nat
  deriving Repr, DecidableEq

/-- `MissingUnlockError` from report.go (missing release finding). -/
structure MissingUnlockError where
  lockPos : Nat
  returnPos : Nat
  wrapper : Option WrapperInfo
  deriving Repr, DecidableEq

/-- The finding-recording state of `Analyzer`: the shared `reported`
position set and the two finding lists. -/
structure AnalyzerState where
  reported : List Nat
  errors : List LintError
  missingUnlocks : List MissingUnlockError
  deriving Repr, DecidableEq

/-- `Analyzer.recordError` from analyzer.go: drop the finding when the
second-lock position was already reported, else mark it and append. -/
def recordError (st : AnalyzerState) (origin secondLock : Nat)
    (w : Option WrapperInfo) : AnalyzerState :=
  if st.reported.contains secondLock then st
  else
    { st with
        reported := st.reported ++ [secondLock],
        errors := st.errors ++ [⟨origin, secondLock, w⟩] }

/-- The reentrancy phase of `Analyzer.Analyze`: every candidate produced by
`checkReentrantLocks` goes through `recordError`, in traversal order.  The
candidate stream (origin, second lock, wrapper) is a parameter here; the
recording discipline is what the dedup claims are about. -/
def checkReentrantCandidates (st : AnalyzerState)
    (cands : List (Nat × Nat × Option WrapperInfo)) : AnalyzerState :=
  cands.foldl (fun st c => recordError st c.1 c.2.1 c.2.2) st

/-- `Analyzer.checkMissingUnlocks` from analyzer.go: the branch trackers'
errors (concatenated over all functions, in order) are deduplicated
against the same shared `reported` set, keyed by return position. -/
def checkMissingUnlocks (st : AnalyzerState)
    (trackerErrors : List MissingUnlock) : AnalyzerState :=
  trackerErrors.foldl
    (fun st err =>
      if st.reported.contains err.returnPos then st
      else
        { st with
            reported := st.reported ++ [err.returnPos],
            missingUnlocks := st.missingUnlocks ++
              [⟨err.lockInfo.pos, err.returnPos, err.lockInfo.wrapper⟩] })
    st

/-- `Analyzer.Analyze`: the reentrancy check runs first, then the
missing-unlock check, over one shared `reported` set starting empty. -/
def analyzerAnalyze (reent : List (Nat × Nat × Option WrapperInfo))
    (missing : List MissingUnlock) : AnalyzerState :=
  checkMissingUnlocks (checkReentrantCandidates ⟨[], [], []⟩ reent) missing

/-- `Analyzer.isCallOnDifferentReceiver` from analyzer.go. -/
def isCallOnDifferentReceiver (call : MExpr) (scope : MutexScope) : Bool :=
  match selectorExprOfCall call with
  | none => false
  | some sel =>
    match rootSelectorAux sel.1 with
    | none => false
    | some callReceiver =>
      let scopeRoot := (splitSelector scope.selector).1
      if scopeRoot = "" then false
      else callReceiver != scopeRoot

/-- The inputs `checkTransitiveReentrantLock` consults, bundled: collected
scopes, the call graph, the conditional-lock registry, and the fuel bound
standing in for Go's unbounded recursion depth. -/
structure AnalyzerModel where
  scopes : ScopeMap
  calls : CallGraph
  conditionals : ConditionalLockRegistry
  fuel : Nat

/-- `Analyzer.checkTransitiveReentrantLock` from analyzer.go: resolve the
call, prune different receivers, consult the conditional-lock registry,
then run the transitive search with a fresh memo. -/
def checkTransitiveReentrantLock (a : AnalyzerModel) (st : AnalyzerState)
    (scope : MutexScope) (call : MExpr) : AnalyzerState :=
  match getCallInfo call with
  | none => st
  | some fqn =>
    if isCallOnDifferentReceiver call scope then st
    else if shouldSkipLock a.conditionals fqn call scope.selector then st
    else
      match hasTransitiveLockFuel a.scopes a.calls scope a.fuel fqn [] with
      | some (true, _) => recordError st scope.pos (exprPos call) scope.wrapper
      | _ => st

/-- `WrapperKind` from wrappers.go. -/
inductive WrapperKind where
  | lock
  | unlock
  deriving Repr, DecidableEq

/-- `WrapperMethod` from wrappers.go. -/
structure WrapperMethod where
  mutexField : String
  kind : WrapperKind
  fqn : FQN
  lockPos : Nat
  deriving Repr, DecidableEq

/-- `WrapperRegistry`: a map from FQN to a single `WrapperMethod`. -/
structure WrapperRegistry where
  wrappers : List (FQN × WrapperMethod)
  deriving Repr, DecidableEq

/-- `WrapperRegistry.Register`: map assignment (newest entry wins). -/
def WrapperRegistry.register (r : WrapperRegistry) (fqn : FQN)
    (mutexField : String) (kind : WrapperKind) (lockPos : Nat) :
    WrapperRegistry :=
  ⟨(fqn, ⟨mutexField, kind, fqn, lockPos⟩) :: r.wrappers⟩

/-- `WrapperRegistry.Get`. -/
def WrapperRegistry.get (r : WrapperRegistry) (fqn : FQN) :
    Option WrapperMethod :=
  r.wrappers.lookup fqn

/-- The scope scan of `IdentifyWrappers`: the first finished scope that is
not unlocked and has a non-empty field suffix qualifies the function as a
lock wrapper; unlocked or fieldless scopes are passed over. -/
def firstLockWrapperScope : List MutexScope → Option (String × Nat)
  | [] => none
  | s :: rest =>
    if s.unlocked then firstLockWrapperScope rest
    else
      let field := (splitSelector s.selector).2
      if field = "" then firstLockWrapperScope rest
      else some (field, s.pos)

/-- The loop of `getUnlockOnlyField` from wrappers.go over the top-level
statements of a body: remember whether any statement is a direct lock call
and the field/position of the last direct unlock call. -/
def getUnlockOnlyFieldLoop : List MStmt → Bool → String → Nat →
    Bool × String × Nat
  | [], hasLock, fld, pos => (hasLock, fld, pos)
  | s :: rest, hasLock, fld, pos =>
    let hasLock := hasLock || (subjectForLockCallStmt s).isSome
    match subjectForUnlockCallStmt s with
    | some e =>
      getUnlockOnlyFieldLoop rest hasLock (splitSelector (strExpr e)).2
        (stmtPos s)
    | none => getUnlockOnlyFieldLoop rest hasLock fld pos

/-- `getUnlockOnlyField` from wrappers.go (`token.NoPos` rendered as 0). -/
def getUnlockOnlyField (body : List MStmt) : String × Nat :=
  let r := getUnlockOnlyFieldLoop body false "" 0
  if r.1 || r.2.1 = "" then ("", 0) else (r.2.1, r.2.2)

/-- First pass of `WrapperRegistry.IdentifyWrappers`: lock wrappers from
the collected scopes (resolved through the heap the trackers wrote). -/
def identifyLockWrappers (r : WrapperRegistry)
    (scopes : List (FQN × LockTracker)) (h : Heap) : WrapperRegistry :=
  scopes.foldl
    (fun r p =>
      match firstLockWrapperScope (scopesOf p.2 h) with
      | some fp => r.register p.1 fp.1 .lock fp.2
      | none => r)
    r

/-- Second pass of `IdentifyWrappers`: unlock-only methods, skipping any
FQN already present in the registry. -/
def identifyUnlockWrappers (r : WrapperRegistry)
    (funcs : List (FQN × List MStmt)) : WrapperRegistry :=
  funcs.foldl
    (fun r p =>
      match r.get p.1 with
      | some _ => r
      | none =>
        let uf := getUnlockOnlyField p.2
        if uf.1 = "" then r else r.register p.1 uf.1 .unlock uf.2)
    r

/-- `WrapperRegistry.IdentifyWrappers` from wrappers.go: both passes over
an empty registry.  Functions come as (FQN, body) pairs, the composition
of the visitor's `funcs` list with `fqnFunc`. -/
def identifyWrappers (scopes : List (FQN × LockTracker)) (h : Heap)
    (funcs : List (FQN × List MStmt)) : WrapperRegistry :=
  identifyUnlockWrappers (identifyLockWrappers ⟨[]⟩ scopes h) funcs

/-- `BranchTracker` state: ongoing lock infos per selector, selectors with
deferred releases, and the collected errors.  Go clones share a pointer to
the error slice, so the embedding threads `errors` through every branch
while branch-local map changes are discarded by the parent. -/
structure BTState where
  ongoing : List (String × BranchLockInfo)
  defers : List String
  errors : List MissingUnlock
  deriving Repr, DecidableEq

/-- Insert an ongoing entry unless the selector already has one. -/
def btInsertOngoing (m : List (String × BranchLockInfo)) (k : String)
    (info : BranchLockInfo) : List (String × BranchLockInfo) :=
  if (m.lookup k).isSome then m else m ++ [(k, info)]

/-- Go `delete` on the ongoing map. -/
def btEraseOngoing (m : List (String × BranchLockInfo)) (k : String) :
    List (String × BranchLockInfo) :=
  m.filter (fun p => p.1 ≠ k)

/-- Mark a selector as having a deferred release (set insertion). -/
def btAddDefer (t : BTState) (selector : String) : BTState :=
  if t.defers.contains selector then t
  else { t with defers := t.defers ++ [selector] }

/-- `BranchTracker.checkReturnWithLocks`: every ongoing selector without a
deferred release contributes a `MissingUnlock` at this return. -/
def btCheckReturnWithLocks (t : BTState) (retPos : Nat) : BTState :=
  { t with
      errors := t.errors ++
        ((t.ongoing.filter (fun p => !t.defers.contains p.1)).map
          (fun p => ⟨p.2, retPos⟩)) }

/-- `BranchTracker.checkWrapperLockCall` from branch tracking: a statement
calling a registered lock wrapper opens an ongoing entry for the effective
selector `receiver.mutexField`, annotated with the wrapper. -/
def btCheckWrapperLockCall (reg : Option WrapperRegistry) (t : BTState)
    (stmt : MStmt) : BTState :=
  match reg with
  | none => t
  | some r =>
    match callExprOfStmt stmt with
    | none => t
    | some call =>
      match getCallInfo call with
      | none => t
      | some fqn =>
        match r.get fqn with
        | none => t
        | some w =>
          match w.kind with
          | .unlock => t
          | .lock =>
            match selectorExprOfCall call with
            | none => t
            | some sel =>
              match rootSelectorAux sel.1 with
              | none => t
              | some recv =>
                let eff := recv ++ "." ++ w.mutexField
                { t with
                    ongoing := btInsertOngoing t.ongoing eff
                      ⟨eff, stmtPos stmt, some ⟨w.fqn, w.lockPos⟩⟩ }

/-- `BranchTracker.checkWrapperUnlockCall`: a call to a registered unlock
wrapper deletes the effective selector's ongoing entry. -/
def btCheckWrapperUnlockCall (reg : Option WrapperRegistry) (t : BTState)
    (stmt : MStmt) : BTState :=
  match reg with
  | none => t
  | some r =>
    match callExprOfStmt stmt with
    | none => t
    | some call =>
      match getCallInfo call with
      | none => t
      | some fqn =>
        match r.get fqn with
        | none => t
        | some w =>
          match w.kind with
          | .lock => t
          | .unlock =>
            match selectorExprOfCall call with
            | none => t
            | some sel =>
              match rootSelectorAux sel.1 with
              | none => t
              | some recv =>
                { t with
                    ongoing := btEraseOngoing t.ongoing
                      (recv ++ "." ++ w.mutexField) }

/-- Go's type assertion `stmt.(*ast.ReturnStmt)` as a projection. -/
def btReturnPos : MStmt → Option Nat
  | .returnStmt pos _ => some pos
  | _ => none

/-- `BranchTracker.checkDeferredWrapperUnlock`: a deferred call to an
unlock wrapper registers the effective selector as deferred. -/
def btCheckDeferredWrapperUnlock (reg : Option WrapperRegistry)
    (t : BTState) (stmt : MStmt) : BTState :=
  match reg with
  | none => t
  | some r =>
    match stmt with
    | .deferStmt call =>
      match getCallInfo call with
      | none => t
      | some fqn =>
        match r.get fqn with
        | none => t
        | some w =>
          match w.kind with
          | .lock => t
          | .unlock =>
            match selectorExprOfCall call with
            | none => t
            | some sel =>
              match rootSelectorAux sel.1 with
              | none => t
              | some recv => btAddDefer t (recv ++ "." ++ w.mutexField)
    | _ => t

/-- Direct-acquisition step of `BranchTracker.analyzeStmt`. -/
def btLockStep (t : BTState) (stmt : MStmt) : BTState :=
  match subjectForLockCallStmt stmt with
  | some e =>
    let selector := strExpr e
    { t with
        ongoing := btInsertOngoing t.ongoing selector
          ⟨selector, stmtPos stmt, none⟩ }
  | none => t

/-- Direct deferred-release step of `BranchTracker.analyzeStmt`. -/
def btDeferStep (t : BTState) (stmt : MStmt) : BTState :=
  match subjectForDeferUnlockCallStmt stmt with
  | some e => btAddDefer t (strExpr e)
  | none => t

/-- Direct-release step of `BranchTracker.analyzeStmt`. -/
def btUnlockStep (t : BTState) (stmt : MStmt) : BTState :=
  match subjectForUnlockCallStmt stmt with
  | some e => { t with ongoing := btEraseOngoing t.ongoing (strExpr e) }
  | none => t

mutual

/-- `BranchTracker.analyzeStmt`: direct and wrapper acquisitions, deferred
and direct releases, then either the return check (with no recursion into
the return) or the nested-statement walk. -/
def btAnalyzeStmt (reg : Option WrapperRegistry) (t : BTState)
    (stmt : MStmt) : BTState :=
  let t1 := btLockStep t stmt
  let t2 := btCheckWrapperLockCall reg t1 stmt
  let t3 := btDeferStep t2 stmt
  let t4 := btCheckDeferredWrapperUnlock reg t3 stmt
  let t5 := btUnlockStep t4 stmt
  let t6 := btCheckWrapperUnlockCall reg t5 stmt
  match btReturnPos stmt with
  | some pos => btCheckReturnWithLocks t6 pos
  | none => btAnalyzeNested reg t6 stmt
termination_by (sizeOf stmt, 1)
decreasing_by all_goals (simp_wf <;> omega)

/-- `BranchTracker.analyzeNestedStmt`: branch bodies run on clones — same
maps going in, branch map changes discarded, errors kept (the clones share
the error sink). -/
def btAnalyzeNested (reg : Option WrapperRegistry) (t : BTState) :
    MStmt → BTState
  | .ifStmt init _ body els =>
    let t1 :=
      match init with
      | some i => btAnalyzeStmt reg t i
      | none => t
    let t2 := { t1 with errors := (btAnalyzeStmts reg t1 body).errors }
    (match els with
      | some e =>
        let t3 :=
          match e with
          | .blockStmt l => btAnalyzeStmts reg t2 l
          | .ifStmt i c b el => btAnalyzeStmt reg t2 (.ifStmt i c b el)
          | _ => t2
        { t2 with errors := t3.errors }
      | none => t2)
  | .forStmt init _ _ body =>
    let t1 :=
      match init with
      | some i => btAnalyzeStmt reg t i
      | none => t
    { t1 with errors := (btAnalyzeStmts reg t1 body).errors }
  | .rangeStmt _ body =>
    { t with errors := (btAnalyzeStmts reg t body).errors }
  | .switchStmt init _ body =>
    let t1 :=
      match init with
      | some i => btAnalyzeStmt reg t i
      | none => t
    btAnalyzeClauses reg t1 body
  | .typeSwitchStmt init _ body =>
    let t1 :=
      match init with
      | some i => btAnalyzeStmt reg t i
      | none => t
    btAnalyzeClauses reg t1 body
  | .selectStmt body => btAnalyzeCommClauses reg t body
  | .blockStmt body => btAnalyzeStmts reg t body
  | _ => t
termination_by s => (sizeOf s, 0)
decreasing_by all_goals (simp_wf <;> omega)

/-- `BranchTracker.AnalyzeStatements`. -/
def btAnalyzeStmts (reg : Option WrapperRegistry) (t : BTState) :
    List MStmt → BTState
  | [] => t
  | s :: rest => btAnalyzeStmts reg (btAnalyzeStmt reg t s) rest
termination_by l => (sizeOf l, 0)
decreasing_by all_goals (simp_wf <;> omega)

/-- The `CaseClause` loop of switch/type-switch: each case's body runs on
a clone of the tracker at the switch head; only errors survive. -/
def btAnalyzeClauses (reg : Option WrapperRegistry) (t : BTState) :
    List MStmt → BTState
  | [] => t
  | c :: rest =>
    match c with
    | .caseClause body =>
      let tb := btAnalyzeStmts reg t body
      btAnalyzeClauses reg { t with errors := tb.errors } rest
    | _ => btAnalyzeClauses reg t rest
termination_by l => (sizeOf l, 0)
decreasing_by all_goals (simp_wf <;> omega)

/-- The `CommClause` loop of a select statement. -/
def btAnalyzeCommClauses (reg : Option WrapperRegistry) (t : BTState) :
    List MStmt → BTState
  | [] => t
  | c :: rest =>
    match c with
    | .commClause body =>
      let tb := btAnalyzeStmts reg t body
      btAnalyzeCommClauses reg { t with errors := tb.errors } rest
    | _ => btAnalyzeCommClauses reg t rest
termination_by l => (sizeOf l, 0)
decreasing_by all_goals (simp_wf <;> omega)

end

/-!
The reentrancy scan (`Analyzer.checkNodeForReentrantLock`) walks a scope
node with `ast.Inspect` and distinguishes only five node shapes: call
expressions, function literals, goroutine-spawn statements, returns and
assignments; every other node is traversal-transparent.  `GNode` captures
exactly that view; call positions double as node identity and function
literals carry a unique id (Go keys its skip set by pointer identity).
-/

/-- The node shapes `checkNodeForReentrantLock` distinguishes. -/
inductive GNode where
  | callN (pos : Nat) (fn : GNode) (args : List GNode)
  | funcLitN (id : Nat) (body : List GNode)
  | goN (child : GNode)
  | retN (results : List GNode)
  | assignN (lhs rhs : List GNode)
  | otherN (children : List GNode)
  | leafN

/-- Ids of the function literals directly contained in a node list (the
loops over `call.Args`, `ret.Results`, `assign.Rhs` in the skip pass). -/
def litIds : List GNode → List Nat
  | [] => []
  | n :: rest =>
    (match n with
      | .funcLitN id _ => [id]
      | _ => [])
      ++ litIds rest

mutual

/-- The first `ast.Inspect` pass of `checkNodeForReentrantLock`: the ids
of function literals that appear as a call argument, a return result, or
an assignment right-hand side, anywhere inside the node. -/
def collectSkip : GNode → List Nat
  | .callN _ fn args => litIds args ++ (collectSkip fn ++ collectSkipList args)
  | .funcLitN _ body => collectSkipList body
  | .goN c => collectSkip c
  | .retN rs => litIds rs ++ collectSkipList rs
  | .assignN l r => litIds r ++ (collectSkipList l ++ collectSkipList r)
  | .otherN cs => collectSkipList cs
  | .leafN => []

/-- Skip-pass traversal of a child list (`ast.Inspect` visits each). -/
def collectSkipList : List GNode → List Nat
  | [] => []
  | n :: rest => collectSkip n ++ collectSkipList rest

end

mutual

/-- The second `ast.Inspect` pass: the positions of the call expressions
on which `checkDirectReentrantLock`/`checkTransitiveReentrantLock` run.
Goroutine-spawn subtrees are pruned; function literals in the skip set are
pruned; every visited call is checked and its children are still walked. -/
def checkedCalls (skip : List Nat) : GNode → List Nat
  | .callN pos fn args =>
    pos :: (checkedCalls skip fn ++ checkedCallsList skip args)
  | .funcLitN id body =>
    if skip.contains id then [] else checkedCallsList skip body
  | .goN _ => []
  | .retN rs => checkedCallsList skip rs
  | .assignN l r => checkedCallsList skip l ++ checkedCallsList skip r
  | .otherN cs => checkedCallsList skip cs
  | .leafN => []

/-- Checked-pass traversal of a child list. -/
def checkedCallsList (skip : List Nat) : List GNode → List Nat
  | [] => []
  | n :: rest => checkedCalls skip n ++ checkedCallsList skip rest

end

/-- `checkNodeForReentrantLock` as a whole: collect the skip set over the
node, then run the checking traversal with it. -/
def checkNode (n : GNode) : List Nat :=
  checkedCalls (collectSkip n) n

mutual

/-- All call positions syntactically inside a node. -/
def allCalls : GNode → List Nat
  | .callN pos fn args => pos :: (allCalls fn ++ allCallsList args)
  | .funcLitN _ body => allCallsList body
  | .goN c => allCalls c
  | .retN rs => allCallsList rs
  | .assignN l r => allCallsList l ++ allCallsList r
  | .otherN cs => allCallsList cs
  | .leafN => []

/-- All call positions inside a node list. -/
def allCallsList : List GNode → List Nat
  | [] => []
  | n :: rest => allCalls n ++ allCallsList rest

end

mutual

/-- The call positions the specification excludes from the reentrancy
scan: everything inside a goroutine-spawn statement, and everything inside
a function literal that appears as a call argument, as a return result,
or as an assignment right-hand side. -/
def exCalls : GNode → List Nat
  | .callN _ fn args => exCalls fn ++ exCallsArgs args
  | .funcLitN _ body => exCallsList body
  | .goN c => allCalls c
  | .retN rs => exCallsArgs rs
  | .assignN l r => exCallsList l ++ exCallsArgs r
  | .otherN cs => exCallsList cs
  | .leafN => []

/-- Excluded calls in a position where a function literal escapes (call
argument, return result, assignment right-hand side): a literal's whole
body is excluded, other children only contribute their own exclusions. -/
def exCallsArgs : List GNode → List Nat
  | [] => []
  | a :: rest => exCallsHead a ++ exCallsArgs rest

/-- Head case of an escaping position: a function literal's whole body,
any other node only its own exclusions. -/
def exCallsHead : GNode → List Nat
  | .funcLitN _ body => allCallsList body
  | a => exCalls a

/-- Excluded calls inside a plain child list. -/
def exCallsList : List GNode → List Nat
  | [] => []
  | n :: rest => exCalls n ++ exCallsList rest

end

/-! ## Supporting lemmas -/

/-- `ShouldSkipLock` is the disjunction over the callee's conditional
locks (the empty-list guard changes nothing). -/
theorem shouldSkipLock_eq_any (r : ConditionalLockRegistry) (fqn : FQN)
    (call : MExpr) (held : String) :
    shouldSkipLock r fqn call held =
      (r.get fqn).any (condLockSkips held (callArgs call)) := by
  unfold shouldSkipLock
  cases hl : r.get fqn <;> simp [hl]

/-- One conditional lock closes the gate exactly when its selector matches
and the argument at its parameter index is the boolean literal equal to
its `negated` flag. -/
theorem condLockSkips_eq_true (held : String) (args : List MExpr)
    (cl : ConditionalLock) :
    condLockSkips held args cl = true ↔
      cl.selector = held ∧
        (args.get? cl.paramIndex).bind extractBoolLiteral =
          some cl.negated := by
  unfold condLockSkips
  cases hg : args.get? cl.paramIndex with
  | none => simp [hg]
  | some arg =>
    cases hb : extractBoolLiteral arg with
    | none => simp [hg, hb]
    | some v =>
      cases hv : cl.negated <;> cases v <;>
        simp [hg, hb, hv, Bool.and_eq_true, beq_iff_eq]

/-- A successfully extracted literal pins the index inside the list. -/
theorem bind_extract_lt {args : List MExpr} {i : Nat} {b : Bool}
    (h : (args.get? i).bind extractBoolLiteral = some b) :
    i < args.length := by
  cases hg : args.get? i with
  | none => rw [hg] at h; simp at h
  | some a => exact (List.get?_eq_some.mp hg).1

/-! ## Claim theorems -/

/-- **C5.** For every function `fqn` with registered conditional locks,
every call expression and every held selector: `ShouldSkipLock` returns
true iff some conditional lock of `fqn` has `Selector` equal to the held
selector, its `ParamIndex` within the call's argument list, and the
corresponding argument is the boolean literal that statically closes the
gate — literal `false` for a non-negated gate, literal `true` for a
negated one, i.e. the literal's value equals the `negated` flag.  In
particular, when every matching conditional lock's argument is a
non-literal expression (`extractBoolLiteral` yields none), no existential
witness exists and the query returns false. -/
theorem shouldSkipLock_characterization (r : ConditionalLockRegistry)
    (fqn : FQN) (pos : Nat) (fn : MExpr) (args : List MExpr)
    (res : Option FQN) (held : String) :
    shouldSkipLock r fqn (.callE pos fn args res) held = true ↔
      ∃ cl ∈ r.get fqn, cl.selector = held ∧
        cl.paramIndex < args.length ∧
        (args.get? cl.paramIndex).bind extractBoolLiteral =
          some cl.negated := by
  rw [shouldSkipLock_eq_any, List.any_eq_true]
  show (∃ cl ∈ r.get fqn, condLockSkips held (callArgs _) cl = true) ↔ _
  simp only [callArgs]
  constructor
  · rintro ⟨cl, hmem, hskip⟩
    have h := (condLockSkips_eq_true held args cl).mp hskip
    exact ⟨cl, hmem, h.1, bind_extract_lt h.2, h.2⟩
  · rintro ⟨cl, hmem, h1, _, h3⟩
    exact ⟨cl, hmem, (condLockSkips_eq_true held args cl).mpr ⟨h1, h3⟩⟩

/-- The two-node cyclic call graph of claim C1's example: `p.A` calls
`p.B` and `p.B` calls `p.A`, with no recorded scopes. -/
def cycleCalls : CallGraph := [("p.A", ["p.B"]), ("p.B", ["p.A"])]

/-- The held scope used for the C1 query. -/
def heldScope : MutexScope := ⟨"s.mu", 0, [], false, none⟩

/-- **C1.** The claim asserts every top-level `hasTransitiveLock` query
terminates on cyclic call graphs because revisits consult the per-query
memo.  The code writes the memo only *after* a function's exploration
finishes, so on the claim's own example — `A ∈ calls[B]` and
`B ∈ calls[A]`, neither locking — the recursion revisits each node with
the memo still empty and never returns: for every fuel bound the fueled
rendering is still unfinished, i.e. the Go recursion diverges. -/
theorem hasTransitiveLock_cycle_diverges :
    ∀ fuel,
      hasTransitiveLockFuel [] cycleCalls heldScope fuel "p.A" [] = none ∧
      hasTransitiveLockFuel [] cycleCalls heldScope fuel "p.B" [] = none := by
  intro fuel
  induction fuel with
  | zero => exact ⟨by rw [hasTransitiveLockFuel], by rw [hasTransitiveLockFuel]⟩
  | succ n ih =>
    have ih1 := ih.1
    have ih2 := ih.2
    simp only [cycleCalls] at ih1 ih2
    constructor
    · rw [hasTransitiveLockFuel]
      simp [cycleCalls, List.lookup, transitiveCallees, ih2]
    · rw [hasTransitiveLockFuel]
      simp [cycleCalls, List.lookup, transitiveCallees, ih1]

/-- **C4.** For every held scope and every method call whose callee is a
selector expression, if the root identifier of the call's receiver chain
differs textually from the prefix of the scope's selector before its
first dot (and that prefix is non-empty, as `isCallOnDifferentReceiver`
requires), then `checkTransitiveReentrantLock` returns the analyzer state
unchanged: no transitive Reentrant finding is produced for that call,
independently of the recorded scopes and call graph — in particular even
when the callee acquires a same-named mutex field on its own receiver. -/
theorem checkTransitive_different_receiver_skipped
    (a : AnalyzerModel) (st : AnalyzerState) (scope : MutexScope)
    (pos : Nat) (x : MExpr) (f : String) (args : List MExpr)
    (res : Option FQN) (r : String)
    (hr : rootSelectorAux x = some r)
    (hroot : (splitSelector scope.selector).1 ≠ "")
    (hdiff : r ≠ (splitSelector scope.selector).1) :
    checkTransitiveReentrantLock a st scope
      (.callE pos (.selE x f) args res) = st := by
  have hd : isCallOnDifferentReceiver (.callE pos (.selE x f) args res)
      scope = true := by
    unfold isCallOnDifferentReceiver selectorExprOfCall
    simp only [hr, if_neg hroot, bne_iff_ne, ne_eq]
    exact hdiff
  unfold checkTransitiveReentrantLock getCallInfo
  cases res with
  | none => rfl
  | some fqn => simp [hd]

/-- Inputs for the C4 witness: the scope holds `s.mu`, the call is
`other.Work()` on a different receiver root, and the callee's own scopes
do acquire a field named `mu` on its own receiver. -/
def c4Model : AnalyzerModel :=
  ⟨[("p.Other:Work", [⟨"other.mu", 7, [], false, none⟩])],
    [], ⟨[]⟩, 100⟩

/-- Concrete analyzer state for the C4 witness. -/
def c4State : AnalyzerState := ⟨[3], [⟨1, 3, none⟩], []⟩

/-- Witness for C4 at a concrete input: the call `other.Work()` made while
`s.mu` is held is pruned, leaving the state untouched. -/
theorem checkTransitive_different_receiver_skipped_witness :
    checkTransitiveReentrantLock c4Model c4State ⟨"s.mu", 1, [], false, none⟩
      (.callE 9 (.selE (.ident "other") "Work") [] (some "p.Other:Work")) =
      c4State :=
  checkTransitive_different_receiver_skipped c4Model c4State
    ⟨"s.mu", 1, [], false, none⟩ 9 (.ident "other") "Work" []
    (some "p.Other:Work") "other" rfl (by decide) (by decide)

/-- The combined target-position list of an analyzer state: second-lock
positions of reentrant findings, then return positions of missing-release
findings. -/
def targetPositions (st : AnalyzerState) : List Nat :=
  st.errors.map LintError.secondLock ++
    st.missingUnlocks.map MissingUnlockError.returnPos

/-- The dedup invariant maintained by the recording functions: every
recorded target position is in `reported`, and no two findings share one. -/
def DedupInv (st : AnalyzerState) : Prop :=
  (∀ p ∈ targetPositions st, p ∈ st.reported) ∧ (targetPositions st).Nodup

/-- `recordError` at an already reported position is a no-op. -/
theorem recordError_mem (st : AnalyzerState) (origin secondLock : Nat)
    (w : Option WrapperInfo) (hm : secondLock ∈ st.reported) :
    recordError st origin secondLock w = st := by
  unfold recordError
  have hc : st.reported.contains secondLock = true := List.elem_iff.mpr hm
  rw [hc, if_pos rfl]

/-- `recordError` at a fresh position marks it and appends the finding. -/
theorem recordError_not_mem (st : AnalyzerState) (origin secondLock : Nat)
    (w : Option WrapperInfo) (hm : secondLock ∉ st.reported) :
    recordError st origin secondLock w =
      { st with
          reported := st.reported ++ [secondLock],
          errors := st.errors ++ [⟨origin, secondLock, w⟩] } := by
  unfold recordError
  have hc : st.reported.contains secondLock = false := by simpa using hm
  rw [hc, if_neg Bool.false_ne_true]

/-- `recordError` preserves the dedup invariant. -/
theorem recordError_dedupInv {st : AnalyzerState} (h : DedupInv st)
    (origin secondLock : Nat) (w : Option WrapperInfo) :
    DedupInv (recordError st origin secondLock w) := by
  by_cases hm : secondLock ∈ st.reported
  · rw [recordError_mem st origin secondLock w hm]; exact h
  · rw [recordError_not_mem st origin secondLock w hm]
    have hnew : secondLock ∉ targetPositions st := fun hmem =>
      hm (h.1 _ hmem)
    have htp : targetPositions
        { st with
            reported := st.reported ++ [secondLock],
            errors := st.errors ++ [⟨origin, secondLock, w⟩] } =
        st.errors.map LintError.secondLock ++ secondLock ::
          st.missingUnlocks.map MissingUnlockError.returnPos := by
      simp [targetPositions]
    constructor
    · intro p hp
      rw [htp] at hp
      rcases List.mem_append.mp hp with hp | hp
      · exact List.mem_append_left _ (h.1 p (List.mem_append_left _ hp))
      · rcases List.mem_cons.mp hp with rfl | hp
        · exact List.mem_append_right _ (List.mem_singleton_self _)
        · exact List.mem_append_left _ (h.1 p (List.mem_append_right _ hp))
    · rw [htp, List.nodup_middle]
      exact List.Nodup.cons (fun hmem => hnew hmem) h.2

/-- The missing-release recording step preserves the dedup invariant. -/
theorem missingStep_dedupInv {st : AnalyzerState} (h : DedupInv st)
    (err : MissingUnlock) :
    DedupInv (if st.reported.contains err.returnPos then st
      else
        { st with
            reported := st.reported ++ [err.returnPos],
            missingUnlocks := st.missingUnlocks ++
              [⟨err.lockInfo.pos, err.returnPos,
                err.lockInfo.wrapper⟩] }) := by
  by_cases hm : err.returnPos ∈ st.reported
  · have hc : st.reported.contains err.returnPos = true :=
      List.elem_iff.mpr hm
    rw [hc, if_pos rfl]
    exact h
  · have hc : st.reported.contains err.returnPos = false := by simpa using hm
    rw [hc, if_neg Bool.false_ne_true]
    have hnew : err.returnPos ∉ targetPositions st := fun hmem =>
      hm (h.1 _ hmem)
    have htp : targetPositions
        { st with
            reported := st.reported ++ [err.returnPos],
            missingUnlocks := st.missingUnlocks ++
              [⟨err.lockInfo.pos, err.returnPos,
                err.lockInfo.wrapper⟩] } =
        targetPositions st ++ [err.returnPos] := by
      simp [targetPositions]
    constructor
    · intro p hp
      rw [htp] at hp
      rcases List.mem_append.mp hp with hp | hp
      · exact List.mem_append_left _ (h.1 p hp)
      · rcases List.mem_singleton.mp hp with rfl
        exact List.mem_append_right _ (List.mem_singleton_self _)
    · rw [htp]
      exact h.2.append (List.nodup_singleton _)
        (by simpa [List.disjoint_singleton] using hnew)

/-- The reentrancy phase preserves the dedup invariant. -/
theorem checkReentrantCandidates_dedupInv
    (cands : List (Nat × Nat × Option WrapperInfo)) :
    ∀ st : AnalyzerState, DedupInv st →
      DedupInv (checkReentrantCandidates st cands) := by
  induction cands with
  | nil => intro st h; exact h
  | cons c rest ih =>
    intro st h
    exact ih _ (recordError_dedupInv h c.1 c.2.1 c.2.2)

/-- The missing-release phase preserves the dedup invariant. -/
theorem checkMissingUnlocks_dedupInv (errs : List MissingUnlock) :
    ∀ st : AnalyzerState, DedupInv st →
      DedupInv (checkMissingUnlocks st errs) := by
  induction errs with
  | nil => intro st h; exact h
  | cons e rest ih =>
    intro st h
    exact ih _ (missingStep_dedupInv h e)

/-- An analyzer run satisfies the dedup invariant. -/
theorem analyzerAnalyze_dedupInv
    (reent : List (Nat × Nat × Option WrapperInfo))
    (missing : List MissingUnlock) :
    DedupInv (analyzerAnalyze reent missing) :=
  checkMissingUnlocks_dedupInv missing _
    (checkReentrantCandidates_dedupInv reent _
      ⟨by intro p hp; simp [targetPositions] at hp, by
        simp [targetPositions]⟩)

/-- **C9.** Within one analyzer run, for each finding kind no two reported
findings share the same target position: whatever candidate streams the
two phases produce, the recorded Reentrant findings have pairwise distinct
second-lock positions and the recorded MissingRelease findings have
pairwise distinct return positions — later candidates at an
already-reported position are discarded by `recordError` and by
`checkMissingUnlocks`. -/
theorem analyzer_dedup_per_kind
    (reent : List (Nat × Nat × Option WrapperInfo))
    (missing : List MissingUnlock) :
    ((analyzerAnalyze reent missing).errors.map
      LintError.secondLock).Nodup ∧
    ((analyzerAnalyze reent missing).missingUnlocks.map
      MissingUnlockError.returnPos).Nodup := by
  have h := analyzerAnalyze_dedupInv reent missing
  unfold DedupInv targetPositions at h
  exact ⟨h.2.of_append_left, h.2.of_append_right⟩

/-- **C10.** Deduplication is global across the two finding kinds: the
analyzer keeps one shared `reported` set, the reentrancy phase runs first,
and a MissingRelease candidate whose return position equals the
second-lock position of an already-recorded Reentrant finding is dropped.
Hence over the whole run each source position carries at most one finding
of any kind: the concatenated target-position list is duplicate-free, and
no recorded MissingRelease shares its return position with any recorded
Reentrant finding's second-lock position. -/
theorem analyzer_dedup_global
    (reent : List (Nat × Nat × Option WrapperInfo))
    (missing : List MissingUnlock) :
    ((analyzerAnalyze reent missing).errors.map LintError.secondLock ++
      (analyzerAnalyze reent missing).missingUnlocks.map
        MissingUnlockError.returnPos).Nodup ∧
    ∀ e ∈ (analyzerAnalyze reent missing).errors,
      ∀ m ∈ (analyzerAnalyze reent missing).missingUnlocks,
        m.returnPos ≠ e.secondLock := by
  have hh := analyzerAnalyze_dedupInv reent missing
  unfold DedupInv targetPositions at hh
  have h := hh.2
  refine ⟨h, ?_⟩
  intro e he m hm heq
  have hd := List.disjoint_of_nodup_append h
  exact hd (List.mem_map_of_mem LintError.secondLock he)
    (heq ▸ List.mem_map_of_mem MissingUnlockError.returnPos hm)

/-- Reading back the modified cell of a heap. -/
theorem getScope_modify_self {h : Heap} {i : Nat} {sc : MutexScope}
    (hsc : getScope h i = some sc) (f : MutexScope → MutexScope) :
    getScope (modifyScope h i f) i = some (f sc) := by
  unfold getScope at hsc
  unfold getScope modifyScope
  rw [hsc]
  exact List.get?_set_eq_of_lt _ (List.get?_eq_some.mp hsc).1

/-- Modifying one heap cell leaves the others unchanged. -/
theorem getScope_modify_ne {h : Heap} {i j : Nat} (hne : i ≠ j)
    (f : MutexScope → MutexScope) :
    getScope (modifyScope h i f) j = getScope h j := by
  unfold getScope modifyScope
  cases hg : h.get? i with
  | none => rfl
  | some sc => exact List.get?_set_ne _ _ hne

/-- A successful association-list lookup exhibits a member pair. -/
theorem lookup_some_mem {α β : Type} [BEq α] [LawfulBEq α]
    {l : List (α × β)} {k : α} {v : β}
    (h : List.lookup k l = some v) : (k, v) ∈ l := by
  induction l with
  | nil => simp [List.lookup] at h
  | cons p rest ih =>
    rw [List.lookup] at h
    cases hk : k == p.1 with
    | true =>
      rw [hk] at h
      cases h
      have : k = p.1 := eq_of_beq hk
      subst this
      exact List.mem_cons_self _ _
    | false =>
      rw [hk] at h
      exact List.mem_cons_of_mem _ (ih h)

/-- A failed association-list lookup means the key is absent. -/
theorem lookup_none_keys {α β : Type} [BEq α] [LawfulBEq α]
    {l : List (α × β)} {k : α}
    (h : List.lookup k l = none) : k ∉ l.map Prod.fst := by
  induction l with
  | nil => simp
  | cons p rest ih =>
    rw [List.lookup] at h
    cases hk : k == p.1 with
    | true => rw [hk] at h; cases h
    | false =>
      rw [hk] at h
      simp only [List.map_cons, List.mem_cons]
      rintro (rfl | hmem)
      · simp at hk
      · exact ih h hmem

/-- Parent tracker, heap and release statement for the C2 analysis:
the parent holds `s.m` through scope cell 0. -/
def c2Parent : LockTracker := ⟨[("s.m", 0)], [], []⟩

/-- The heap backing `c2Parent`: one scope record, still locked. -/
def c2Heap : Heap := [⟨"s.m", 5, [], false, none⟩]

/-- The branch-local release `s.m.Unlock()` run on the clone. -/
def c2UnlockStmt : MStmt :=
  .exprStmt (.callE 9 (.selE (.selE (.ident "s") "m") "Unlock") [] none)

/-- **C2 counterexample.** The claim says a clone shares no mutable state
with its parent: operations on the clone leave every `MutexScope`
reachable from the parent's `onGoing` map with the same nodes and the
same unlocked flag.  Concretely false: the parent maps `s.m` to scope
cell 0 with `unlocked = false`; after the clone merely tracks the release
`s.m.Unlock()`, the record the parent still reaches through its own map
has `unlocked = true` — `Clone` copies the maps but shares the
`*MutexScope` records. -/
theorem lockTracker_clone_shares_scopes_counterexample :
    c2Parent.onGoing.lookup "s.m" = some 0 ∧
    (getScope c2Heap 0).map MutexScope.unlocked = some false ∧
    (getScope (track c2Parent.clone c2Heap c2UnlockStmt false).2 0).map
      MutexScope.unlocked = some true := by
  refine ⟨rfl, rfl, ?_⟩
  simp [track, trackNested, trackLockStep, trackDeferStep, trackUnlockStep,
    c2Parent, c2Heap, c2UnlockStmt,
    LockTracker.clone, subjectForLockCallStmt, subjectForUnlockCallStmt,
    subjectForCallStmt, subjectForCall, subjectForDeferUnlockCallStmt,
    strExpr, lockMethods, unlockMethods, List.lookup, eraseSel,
    markUnlocked, modifyScope, getScope]

/-- **C2 (amended).** A `LockTracker` clone copies the map structure but
shares the scope records: for every parent with an ongoing scope, the
clone's `onGoing`/`defers` start as element-wise copies (with an empty
`finished` list), and operations on the clone never add or remove entries
of the parent's maps; but when the clone tracks a release of an ongoing
selector, the shared record — still reachable through the parent's
unchanged `onGoing` entry — is mutated to `unlocked = true` (nodes and
position intact), so scope-record mutations through the clone are visible
to the parent. -/
theorem lockTracker_clone_shares_scope_records
    (t : LockTracker) (h : Heap) (subj : MExpr) (pos : Nat) (i : Nat)
    (sc : MutexScope)
    (hlk : t.onGoing.lookup (strExpr subj) = some i)
    (hsc : getScope h i = some sc) :
    t.clone.onGoing = t.onGoing ∧ t.clone.defers = t.defers ∧
    t.clone.finished = [] ∧
    (track t.clone h
        (.exprStmt (.callE pos (.selE subj "Unlock") [] none)) false).1.onGoing
      = eraseSel t.onGoing (strExpr subj) ∧
    getScope
        (track t.clone h
          (.exprStmt (.callE pos (.selE subj "Unlock") [] none)) false).2 i
      = some { sc with unlocked := true } := by
  have hlock : subjectForLockCallStmt
      (.exprStmt (.callE pos (.selE subj "Unlock") [] none)) = none := rfl
  have hdefer : subjectForDeferUnlockCallStmt
      (.exprStmt (.callE pos (.selE subj "Unlock") [] none)) = none := rfl
  have hunlock : subjectForUnlockCallStmt
      (.exprStmt (.callE pos (.selE subj "Unlock") [] none)) = some subj := rfl
  have hclone : t.clone.onGoing = t.onGoing := rfl
  have hnested : ∀ (t' : LockTracker) (h' : Heap),
      trackNested t' h'
        (.exprStmt (.callE pos (.selE subj "Unlock") [] none)) false =
        (t', h') := fun t' h' => by
    rw [trackNested.eq_def]
  refine ⟨rfl, rfl, rfl, ?_, ?_⟩
  · rw [track.eq_def]
    simp only [trackLockStep, trackDeferStep, trackUnlockStep,
      hlock, hdefer, hunlock, hclone, hlk, hnested,
      Bool.false_eq_true, if_false]
  · rw [track.eq_def]
    simp only [trackLockStep, trackDeferStep, trackUnlockStep,
      hlock, hdefer, hunlock, hclone, hlk, hnested,
      Bool.false_eq_true, if_false]
    exact getScope_modify_self hsc _

/-- Witness for the amended C2 theorem at the concrete parent: after the
clone tracks the release, the record reachable from the parent's map is
unlocked. -/
theorem lockTracker_clone_shares_scope_records_witness :
    getScope (track c2Parent.clone c2Heap c2UnlockStmt false).2 0 =
      some ⟨"s.m", 5, [], true, none⟩ := by
  have h := lockTracker_clone_shares_scope_records c2Parent c2Heap
    (.selE (.ident "s") "m") 9 0 ⟨"s.m", 5, [], false, none⟩ rfl rfl
  exact h.2.2.2.2

/-- Cells other than the added-to one are untouched by `scopeAdd`. -/
theorem foldl_scopeAdd_not_mem (l : List (String × Nat)) (h : Heap)
    (n : MNode) (i : Nat) (hmem : i ∉ l.map Prod.snd) :
    getScope (l.foldl (fun h p => scopeAdd h p.2 n) h) i = getScope h i := by
  induction l generalizing h with
  | nil => rfl
  | cons p rest ih =>
    simp only [List.map_cons, List.mem_cons] at hmem
    push_neg at hmem
    simp only [List.foldl_cons]
    rw [ih _ hmem.2]
    exact getScope_modify_ne (fun e => hmem.1 e.symm) _

/-- Adding a node to every ongoing scope appends it once to a scope whose
id occurs once among the map's values. -/
theorem foldl_scopeAdd_mem (l : List (String × Nat)) (h : Heap) (n : MNode)
    (i : Nat) (sc : MutexScope) (hnd : (l.map Prod.snd).Nodup)
    (hmem : i ∈ l.map Prod.snd) (hsc : getScope h i = some sc) :
    getScope (l.foldl (fun h p => scopeAdd h p.2 n) h) i =
      some { sc with nodes := sc.nodes ++ [n] } := by
  induction l generalizing h with
  | nil => simp at hmem
  | cons p rest ih =>
    simp only [List.map_cons, List.nodup_cons] at hnd
    simp only [List.map_cons, List.mem_cons] at hmem
    simp only [List.foldl_cons]
    rcases hmem with heq | hmem
    · rw [foldl_scopeAdd_not_mem rest _ n i (heq ▸ hnd.1)]
      exact heq ▸ getScope_modify_self hsc _
    · have hne : p.2 ≠ i := fun e => hnd.1 (e ▸ hmem)
      exact ih _ hnd.2 hmem ((getScope_modify_ne hne _).trans hsc)

/-- Tracker and heap for the C8 analysis: selector `s.m` is ongoing via
scope cell 0 with an empty node list. -/
def c8Tracker : LockTracker := ⟨[("s.m", 0)], [], []⟩

/-- The heap backing `c8Tracker`. -/
def c8Heap : Heap := [⟨"s.m", 5, [], false, none⟩]

/-- The second acquisition `s.m.Lock()` fed to the tracker. -/
def c8LockStmt : MStmt :=
  .exprStmt (.callE 7 (.selE (.selE (.ident "s") "m") "Lock") [] none)

/-- **C8 counterexample.** The claim says a second acquisition of an
ongoing selector leaves the existing scope's accumulated nodes unchanged.
False for `Track` with `addToOngoing = true`: the statement-accumulation
step appends the second `Lock` statement itself to every ongoing scope's
node list — which is exactly how the direct-reentrancy check later sees
it.  Here the scope's node list grows from `[]` to the lock statement. -/
theorem track_second_acquisition_counterexample :
    (getScope c8Heap 0).map MutexScope.nodes = some [] ∧
    (getScope (track c8Tracker c8Heap c8LockStmt true).2 0).map
      MutexScope.nodes = some [.stmt c8LockStmt] := by
  refine ⟨rfl, ?_⟩
  simp [track, trackNested, trackLockStep, trackDeferStep, trackUnlockStep,
    c8Tracker, c8Heap, c8LockStmt,
    addStatementToOngoing, addToOngoing, scopeAdd, modifyScope, getScope,
    subjectForLockCallStmt, subjectForUnlockCallStmt, subjectForCallStmt,
    subjectForCall, subjectForDeferUnlockCallStmt, strExpr, lockMethods,
    unlockMethods, List.lookup]

/-- At most one ongoing scope per selector: the keys of the ongoing map
are pairwise distinct. -/
def keysNodup (t : LockTracker) : Prop := (t.onGoing.map Prod.fst).Nodup

/-- Deleting a selector keeps the keys distinct. -/
theorem keysNodup_eraseSel {m : List (String × Nat)}
    (h : (m.map Prod.fst).Nodup) (k : String) :
    ((eraseSel m k).map Prod.fst).Nodup :=
  h.sublist (List.Sublist.map _ (List.filter_sublist m))

/-- Inserting a selector that fails lookup keeps the keys distinct. -/
theorem keysNodup_append {m : List (String × Nat)}
    (h : (m.map Prod.fst).Nodup) {k : String}
    (hlk : List.lookup k m = none) (v : Nat) :
    ((m ++ [(k, v)]).map Prod.fst).Nodup := by
  rw [List.map_append]
  refine h.append (List.nodup_singleton _) ?_
  intro a ha hb
  simp only [List.map_cons, List.map_nil, List.mem_singleton] at hb
  subst hb
  exact lookup_none_keys hlk ha

/-- `EndBlock` empties the ongoing map, so its keys are distinct. -/
theorem endBlock_keysNodup (t : LockTracker) (h : Heap) :
    keysNodup (endBlock t h).1 := by
  show (([] : List (String × Nat)).map Prod.fst).Nodup
  simp

/-- The acquisition step inserts only after a failed lookup. -/
theorem trackLockStep_keysNodup {t : LockTracker} (hnd : keysNodup t)
    (h : Heap) (stmt : MStmt) : keysNodup (trackLockStep t h stmt).1 := by
  unfold trackLockStep
  split
  · dsimp only
    split
    · exact hnd
    · exact keysNodup_append hnd ‹_› _
  · exact hnd

/-- The deferred-release step does not touch the ongoing map. -/
theorem trackDeferStep_keysNodup {t : LockTracker} (hnd : keysNodup t)
    (stmt : MStmt) : keysNodup (trackDeferStep t stmt) := by
  unfold trackDeferStep
  split
  · dsimp only
    split
    · exact hnd
    · exact hnd
  · exact hnd

/-- The release step only filters the ongoing map. -/
theorem trackUnlockStep_keysNodup {t : LockTracker} (hnd : keysNodup t)
    (h : Heap) (stmt : MStmt) : keysNodup (trackUnlockStep t h stmt).1 := by
  unfold trackUnlockStep
  split
  · dsimp only
    split
    · exact keysNodup_eraseSel hnd _
    · exact hnd
  · exact hnd

mutual

/-- `Track` preserves distinctness of the ongoing map's keys: every
insertion is guarded by a failed lookup and every removal is a filter. -/
theorem track_keysNodup (t : LockTracker) (h : Heap) (stmt : MStmt)
    (b : Bool) (hnd : keysNodup t) : keysNodup (track t h stmt b).1 := by
  rw [track.eq_def]
  exact trackNested_keysNodup _ _ stmt b
    (trackUnlockStep_keysNodup
      (trackDeferStep_keysNodup (trackLockStep_keysNodup hnd _ _) _) _ _)
termination_by (sizeOf stmt, 1)
decreasing_by all_goals (simp_wf <;> omega)

/-- `trackNestedStatements` preserves key distinctness. -/
theorem trackNested_keysNodup (t : LockTracker) (h : Heap) (stmt : MStmt)
    (b : Bool) (hnd : keysNodup t) :
    keysNodup (trackNested t h stmt b).1 := by
  rw [trackNested.eq_def]
  cases stmt with
  | ifStmt init cond body els =>
    cases els with
    | none => exact hnd
    | some e => cases e <;> exact hnd
  | forStmt init cond post body => exact trackList_keysNodup t h body b hnd
  | rangeStmt x body => exact trackList_keysNodup t h body b hnd
  | switchStmt init tag body => exact trackCases_keysNodup t h body b hnd
  | typeSwitchStmt init assign body =>
    exact trackCases_keysNodup t h body b hnd
  | selectStmt body => exact trackCommCases_keysNodup t h body b hnd
  | blockStmt body => exact trackList_keysNodup t h body b hnd
  | exprStmt e => exact hnd
  | deferStmt c => exact hnd
  | goStmt c => exact hnd
  | returnStmt p rs => exact hnd
  | assignStmt l r => exact hnd
  | caseClause body => exact hnd
  | commClause body => exact hnd
  | otherStmt => exact hnd
termination_by (sizeOf stmt, 0)
decreasing_by all_goals (simp_wf <;> omega)

/-- Statement lists preserve key distinctness. -/
theorem trackList_keysNodup (t : LockTracker) (h : Heap)
    (stmts : List MStmt) (b : Bool) (hnd : keysNodup t) :
    keysNodup (trackList t h stmts b).1 := by
  rw [trackList.eq_def]
  cases stmts with
  | nil => exact hnd
  | cons s rest =>
    exact trackList_keysNodup _ _ rest b (track_keysNodup t h s b hnd)
termination_by (sizeOf stmts, 0)
decreasing_by all_goals (simp_wf <;> omega)

/-- Switch clause loops preserve key distinctness (each clause runs on a
clone; the parent's ongoing map is only read). -/
theorem trackCases_keysNodup (t : LockTracker) (h : Heap)
    (clauses : List MStmt) (b : Bool) (hnd : keysNodup t) :
    keysNodup (trackCases t h clauses b).1 := by
  rw [trackCases.eq_def]
  cases clauses with
  | nil => exact hnd
  | cons c rest =>
    cases c with
    | caseClause body => exact trackCases_keysNodup _ _ rest b hnd
    | exprStmt e => exact trackCases_keysNodup _ _ rest b hnd
    | deferStmt c => exact trackCases_keysNodup _ _ rest b hnd
    | goStmt c => exact trackCases_keysNodup _ _ rest b hnd
    | returnStmt p rs => exact trackCases_keysNodup _ _ rest b hnd
    | assignStmt l r => exact trackCases_keysNodup _ _ rest b hnd
    | ifStmt i cnd bd e => exact trackCases_keysNodup _ _ rest b hnd
    | forStmt i cnd p bd => exact trackCases_keysNodup _ _ rest b hnd
    | rangeStmt x bd => exact trackCases_keysNodup _ _ rest b hnd
    | switchStmt i tg bd => exact trackCases_keysNodup _ _ rest b hnd
    | typeSwitchStmt i a bd => exact trackCases_keysNodup _ _ rest b hnd
    | selectStmt bd => exact trackCases_keysNodup _ _ rest b hnd
    | commClause bd => exact trackCases_keysNodup _ _ rest b hnd
    | blockStmt bd => exact trackCases_keysNodup _ _ rest b hnd
    | otherStmt => exact trackCases_keysNodup _ _ rest b hnd
termination_by (sizeOf clauses, 0)
decreasing_by all_goals (simp_wf <;> omega)

/-- Select clause loops preserve key distinctness. -/
theorem trackCommCases_keysNodup (t : LockTracker) (h : Heap)
    (clauses : List MStmt) (b : Bool) (hnd : keysNodup t) :
    keysNodup (trackCommCases t h clauses b).1 := by
  rw [trackCommCases.eq_def]
  cases clauses with
  | nil => exact hnd
  | cons c rest =>
    cases c with
    | commClause body => exact trackCommCases_keysNodup _ _ rest b hnd
    | exprStmt e => exact trackCommCases_keysNodup _ _ rest b hnd
    | deferStmt c => exact trackCommCases_keysNodup _ _ rest b hnd
    | goStmt c => exact trackCommCases_keysNodup _ _ rest b hnd
    | returnStmt p rs => exact trackCommCases_keysNodup _ _ rest b hnd
    | assignStmt l r => exact trackCommCases_keysNodup _ _ rest b hnd
    | ifStmt i cnd bd e => exact trackCommCases_keysNodup _ _ rest b hnd
    | forStmt i cnd p bd => exact trackCommCases_keysNodup _ _ rest b hnd
    | rangeStmt x bd => exact trackCommCases_keysNodup _ _ rest b hnd
    | switchStmt i tg bd => exact trackCommCases_keysNodup _ _ rest b hnd
    | typeSwitchStmt i a bd => exact trackCommCases_keysNodup _ _ rest b hnd
    | selectStmt bd => exact trackCommCases_keysNodup _ _ rest b hnd
    | caseClause bd => exact trackCommCases_keysNodup _ _ rest b hnd
    | blockStmt bd => exact trackCommCases_keysNodup _ _ rest b hnd
    | otherStmt => exact trackCommCases_keysNodup _ _ rest b hnd
termination_by (sizeOf clauses, 0)
decreasing_by all_goals (simp_wf <;> omega)

end

/-- **C8 (amended).** At every point of lock tracking the ongoing map
holds at most one scope per selector (`Track` preserves distinctness of
its keys from the empty initial map), and a second acquisition of an ongoing
selector is ignored by the acquisition logic: `Track` neither replaces
the scope nor alters its map entry, and the scope's position, unlocked
flag and wrapper annotation are unchanged; `StartLock` and
`StartLockWithWrapper` leave tracker and heap entirely untouched; with
`addToOngoing = false` so does `Track`.  The one deviation from the claim
is the node list: `Track` with `addToOngoing = true` first appends the
statement itself to every ongoing scope, so the existing scope's nodes
grow by exactly that statement. -/
theorem track_second_acquisition_idempotent
    (t : LockTracker) (h : Heap) (subj : MExpr) (pos : Nat) (m : String)
    (i : Nat) (sc : MutexScope) (w : WrapperInfo)
    (hm : m ∈ lockMethods)
    (hlk : t.onGoing.lookup (strExpr subj) = some i)
    (hsc : getScope h i = some sc)
    (hnd : (t.onGoing.map Prod.snd).Nodup) :
    (∀ (t' : LockTracker) (h' : Heap) (stmt : MStmt) (b : Bool),
      keysNodup t' → keysNodup (track t' h' stmt b).1) ∧
    (track t h (.exprStmt (.callE pos (.selE subj m) [] none)) true).1 = t ∧
    getScope
        (track t h (.exprStmt (.callE pos (.selE subj m) [] none)) true).2 i
      = some { sc with nodes := sc.nodes ++
          [.stmt (.exprStmt (.callE pos (.selE subj m) [] none))] } ∧
    track t h (.exprStmt (.callE pos (.selE subj m) [] none)) false =
      (t, h) ∧
    startLock t h (strExpr subj) pos = (t, h) ∧
    startLockWithWrapper t h (strExpr subj) pos w = (t, h) := by
  have hmcases : m = "RLock" ∨ m = "Lock" := by
    simpa [lockMethods] using hm
  have hlock : subjectForLockCallStmt
      (.exprStmt (.callE pos (.selE subj m) [] none)) = some subj := by
    unfold subjectForLockCallStmt subjectForCallStmt subjectForCall
    rcases hmcases with rfl | rfl <;> rfl
  have hunlock : subjectForUnlockCallStmt
      (.exprStmt (.callE pos (.selE subj m) [] none)) = none := by
    unfold subjectForUnlockCallStmt subjectForCallStmt subjectForCall
    rcases hmcases with rfl | rfl <;> rfl
  have hdefer : subjectForDeferUnlockCallStmt
      (.exprStmt (.callE pos (.selE subj m) [] none)) = none := rfl
  have hnested : ∀ (t' : LockTracker) (h' : Heap) (b : Bool),
      trackNested t' h'
        (.exprStmt (.callE pos (.selE subj m) [] none)) b = (t', h') :=
    fun t' h' b => by rw [trackNested.eq_def]
  have hmemi : i ∈ t.onGoing.map Prod.snd :=
    List.mem_map_of_mem Prod.snd (lookup_some_mem hlk)
  refine ⟨fun t' h' stmt b hnd' => track_keysNodup t' h' stmt b hnd',
    ?_, ?_, ?_, ?_, ?_⟩
  · rw [track.eq_def]
    simp only [trackLockStep, trackDeferStep, trackUnlockStep,
      hlock, hdefer, hunlock, hlk, hnested, if_pos rfl]
  · rw [track.eq_def]
    simp only [trackLockStep, trackDeferStep, trackUnlockStep,
      hlock, hdefer, hunlock, hlk, hnested, if_pos rfl]
    exact foldl_scopeAdd_mem t.onGoing h _ i sc hnd hmemi hsc
  · rw [track.eq_def]
    simp only [trackLockStep, trackDeferStep, trackUnlockStep,
      hlock, hdefer, hunlock, hlk, hnested,
      Bool.false_eq_true, if_false]
  · unfold startLock
    rw [hlk]
  · unfold startLockWithWrapper
    rw [hlk]


/-- Witness for the amended C8 theorem at the concrete tracker: the map
entry survives, position and wrapper are intact, and the node list grew
by the second lock statement. -/
theorem track_second_acquisition_idempotent_witness :
    (track c8Tracker c8Heap c8LockStmt true).1 = c8Tracker ∧
    getScope (track c8Tracker c8Heap c8LockStmt true).2 0 =
      some ⟨"s.m", 5, [.stmt c8LockStmt], false, none⟩ := by
  have h := track_second_acquisition_idempotent c8Tracker c8Heap
    (.selE (.ident "s") "m") 7 "Lock" 0 ⟨"s.m", 5, [], false, none⟩
    ⟨"p.W", 3⟩ (by decide) rfl rfl (by decide)
  exact ⟨h.2.1, h.2.2.1⟩

/-- A scope list whose members are all unlocked never qualifies a lock
wrapper. -/
theorem firstLockWrapperScope_none {l : List MutexScope}
    (h : ∀ sc ∈ l, sc.unlocked = true) : firstLockWrapperScope l = none := by
  induction l with
  | nil => rfl
  | cons s rest ih =>
    unfold firstLockWrapperScope
    rw [h s (List.mem_cons_self s rest)]
    exact ih fun sc hm => h sc (List.mem_cons_of_mem s hm)

/-- A qualifying scope found by the lock-wrapper scan is a member that is
not unlocked and has a non-empty field suffix. -/
theorem firstLockWrapperScope_some {l : List MutexScope}
    {fp : String × Nat} (h : firstLockWrapperScope l = some fp) :
    ∃ sc ∈ l, sc.unlocked = false ∧ (splitSelector sc.selector).2 ≠ "" := by
  induction l with
  | nil => simp [firstLockWrapperScope] at h
  | cons s rest ih =>
    unfold firstLockWrapperScope at h
    by_cases hu : s.unlocked
    · rw [hu] at h
      obtain ⟨sc, hm, hprop⟩ := ih h
      exact ⟨sc, List.mem_cons_of_mem s hm, hprop⟩
    · rw [Bool.not_eq_true] at hu
      rw [hu] at h
      simp only [Bool.false_eq_true, if_false] at h
      by_cases hf : (splitSelector s.selector).2 = ""
      · rw [if_pos hf] at h
        obtain ⟨sc, hm, hprop⟩ := ih h
        exact ⟨sc, List.mem_cons_of_mem s hm, hprop⟩
      · exact ⟨s, List.mem_cons_self s rest, hu, hf⟩

/-- Looking up the key just registered. -/
theorem register_get_self (r : WrapperRegistry) (fqn : FQN) (field : String)
    (kind : WrapperKind) (pos : Nat) :
    (r.register fqn field kind pos).get fqn = some ⟨field, kind, fqn, pos⟩ := by
  unfold WrapperRegistry.register WrapperRegistry.get
  rw [List.lookup]
  simp

/-- Registering one key leaves the other lookups unchanged. -/
theorem register_get_other (r : WrapperRegistry) (k : FQN) (field : String)
    (kind : WrapperKind) (pos : Nat) {fqn : FQN} (hne : fqn ≠ k) :
    (r.register k field kind pos).get fqn = r.get fqn := by
  unfold WrapperRegistry.register WrapperRegistry.get
  rw [List.lookup]
  have : (fqn == k) = false := by simpa using hne
  rw [this]

/-- Where a lock-pass entry comes from: either it was already in the
registry, or some collected tracker of that FQN has a finished scope that
is not unlocked (with a field suffix). -/
theorem identifyLockWrappers_get {scopes : List (FQN × LockTracker)}
    {h : Heap} {r : WrapperRegistry} {fqn : FQN} {w : WrapperMethod}
    (hg : (identifyLockWrappers r scopes h).get fqn = some w) :
    r.get fqn = some w ∨
      (w.kind = .lock ∧ ∃ p ∈ scopes, p.1 = fqn ∧
        ∃ sc ∈ scopesOf p.2 h,
          sc.unlocked = false ∧ (splitSelector sc.selector).2 ≠ "") := by
  induction scopes generalizing r with
  | nil => exact Or.inl hg
  | cons p rest ih =>
    unfold identifyLockWrappers at hg
    rw [List.foldl_cons] at hg
    have hg' := ih (by unfold identifyLockWrappers; exact hg)
    rcases hg' with hg' | ⟨hk, q, hq, hfqn, sc, hsc, hprop⟩
    · cases hfp : firstLockWrapperScope (scopesOf p.2 h) with
      | none => rw [hfp] at hg'; exact Or.inl hg'
      | some fp =>
        rw [hfp] at hg'
        by_cases he : fqn = p.1
        · subst he
          rw [register_get_self] at hg'
          cases hg'
          obtain ⟨sc, hm, hprop⟩ := firstLockWrapperScope_some hfp
          exact Or.inr ⟨rfl, p, List.mem_cons_self p rest, rfl, sc, hm, hprop⟩
        · rw [register_get_other _ _ _ _ _ he] at hg'
          exact Or.inl hg'
    · exact Or.inr ⟨hk, q, List.mem_cons_of_mem p hq, hfqn, sc, hsc, hprop⟩

/-- The lock pass registers nothing for an FQN whose collected scopes all
fail the scan. -/
theorem identifyLockWrappers_get_none {scopes : List (FQN × LockTracker)}
    {h : Heap} {r : WrapperRegistry} {fqn : FQN}
    (hr : r.get fqn = none)
    (hnone : ∀ p ∈ scopes, p.1 = fqn →
      firstLockWrapperScope (scopesOf p.2 h) = none) :
    (identifyLockWrappers r scopes h).get fqn = none := by
  induction scopes generalizing r with
  | nil => exact hr
  | cons p rest ih =>
    unfold identifyLockWrappers
    rw [List.foldl_cons]
    refine ih ?_ fun q hq he => hnone q (List.mem_cons_of_mem p hq) he
    cases hfp : firstLockWrapperScope (scopesOf p.2 h) with
    | none => exact hr
    | some fp =>
      by_cases he : fqn = p.1
      · subst he
        rw [hnone p (List.mem_cons_self p rest) rfl] at hfp
        cases hfp
      · rw [register_get_other _ _ _ _ _ he]
        exact hr

/-- The unlock pass never disturbs an existing registry entry. -/
theorem identifyUnlockWrappers_preserve {funcs : List (FQN × List MStmt)}
    {r : WrapperRegistry} {fqn : FQN} {w : WrapperMethod}
    (hg : r.get fqn = some w) :
    (identifyUnlockWrappers r funcs).get fqn = some w := by
  induction funcs generalizing r with
  | nil => exact hg
  | cons q rest ih =>
    unfold identifyUnlockWrappers
    rw [List.foldl_cons]
    refine ih ?_
    cases hq : r.get q.1 with
    | some w' => exact hg
    | none =>
      have hne : fqn ≠ q.1 := fun he => by rw [he, hq] at hg; cases hg
      by_cases hf : (getUnlockOnlyField q.2).1 = ""
      · rw [if_pos hf]; exact hg
      · rw [if_neg hf, register_get_other _ _ _ _ _ hne]; exact hg

/-- Where an entry after the unlock pass comes from: either the lock pass
already had it, or it is an unlock-kind registration. -/
theorem identifyUnlockWrappers_get {funcs : List (FQN × List MStmt)}
    {r : WrapperRegistry} {fqn : FQN} {w : WrapperMethod}
    (hg : (identifyUnlockWrappers r funcs).get fqn = some w) :
    r.get fqn = some w ∨ w.kind = .unlock := by
  induction funcs generalizing r with
  | nil => exact Or.inl hg
  | cons q rest ih =>
    unfold identifyUnlockWrappers at hg
    rw [List.foldl_cons] at hg
    have hg' := ih (by unfold identifyUnlockWrappers; exact hg)
    rcases hg' with hg' | hk
    · cases hq : r.get q.1 with
      | some w' => rw [hq] at hg'; exact Or.inl hg'
      | none =>
        rw [hq] at hg'
        by_cases hf : (getUnlockOnlyField q.2).1 = ""
        · rw [if_pos hf] at hg'; exact Or.inl hg'
        · rw [if_neg hf] at hg'
          by_cases he : fqn = q.1
          · subst he
            rw [register_get_self] at hg'
            cases hg'
            exact Or.inr rfl
          · rw [register_get_other _ _ _ _ _ he] at hg'
            exact Or.inl hg'
    · exact Or.inr hk

/-- The unlock pass registers nothing for an FQN whose bodies all fail
`getUnlockOnlyField`. -/
theorem identifyUnlockWrappers_get_none {funcs : List (FQN × List MStmt)}
    {r : WrapperRegistry} {fqn : FQN}
    (hr : r.get fqn = none)
    (hfail : ∀ q ∈ funcs, q.1 = fqn → (getUnlockOnlyField q.2).1 = "") :
    (identifyUnlockWrappers r funcs).get fqn = none := by
  induction funcs generalizing r with
  | nil => exact hr
  | cons q rest ih =>
    unfold identifyUnlockWrappers
    rw [List.foldl_cons]
    refine ih ?_ fun p hp he => hfail p (List.mem_cons_of_mem q hp) he
    cases hq : r.get q.1 with
    | some w' => exact hr
    | none =>
      by_cases he : fqn = q.1
      · subst he
        rw [if_pos (hfail q (List.mem_cons_self q rest) rfl)]
        exact hr
      · by_cases hf : (getUnlockOnlyField q.2).1 = ""
        · rw [if_pos hf]; exact hr
        · rw [if_neg hf, register_get_other _ _ _ _ _ he]; exact hr

/-- Once `hasLock` is set, the `getUnlockOnlyField` loop keeps it set. -/
theorem getUnlockOnlyFieldLoop_true (body : List MStmt) :
    ∀ fld pos, (getUnlockOnlyFieldLoop body true fld pos).1 = true := by
  induction body with
  | nil => intro fld pos; rfl
  | cons s rest ih =>
    intro fld pos
    unfold getUnlockOnlyFieldLoop
    cases subjectForUnlockCallStmt s <;> simp [ih]

/-- A top-level lock statement forces `hasLock` in the loop. -/
theorem getUnlockOnlyFieldLoop_hasLock {body : List MStmt}
    (hex : ∃ s ∈ body, (subjectForLockCallStmt s).isSome = true) :
    ∀ b0 fld pos, (getUnlockOnlyFieldLoop body b0 fld pos).1 = true := by
  induction body with
  | nil => simp at hex
  | cons s rest ih =>
    intro b0 fld pos
    rcases hex with ⟨s', hmem, hs'⟩
    rcases List.mem_cons.mp hmem with rfl | hmem
    · unfold getUnlockOnlyFieldLoop
      rw [hs']
      cases subjectForUnlockCallStmt s' <;>
        simp [getUnlockOnlyFieldLoop_true]
    · unfold getUnlockOnlyFieldLoop
      cases subjectForUnlockCallStmt s <;>
        cases b0 <;>
          first
            | exact ih ⟨s', hmem, hs'⟩ _ _ _
            | exact getUnlockOnlyFieldLoop_true _ _ _

/-- A body with a top-level lock statement is never unlock-only. -/
theorem getUnlockOnlyField_of_lock {body : List MStmt}
    (hex : ∃ s ∈ body, (subjectForLockCallStmt s).isSome = true) :
    (getUnlockOnlyField body).1 = "" := by
  unfold getUnlockOnlyField
  dsimp only
  rw [getUnlockOnlyFieldLoop_hasLock hex]
  simp

/-- The C7 function body: the acquisition sits inside a nested bare block,
the release is a top-level statement.  Every acquisition is matched by a
release, so the claim says the function is registered as neither wrapper
kind. -/
def c7Body : List MStmt :=
  [.blockStmt [.exprStmt
      (.callE 11 (.selE (.selE (.ident "s") "m") "Lock") [] none)],
    .exprStmt (.callE 12 (.selE (.selE (.ident "s") "m") "Unlock") [] none)]

/-- Tracker and heap obtained by the visitor's direct-lock analysis of
`c7Body`. -/
def c7Run : LockTracker × Heap := analyzeDirectLocks c7Body

/-- **C7 counterexample.** Running the visitor pipeline on `c7Body`
produces only unlocked finished scopes — the function is self-contained —
yet `IdentifyWrappers` registers it as an *unlock* wrapper: the
unlock-only scan looks at top-level statements only, misses the nested
acquisition, and sees just the release.  This refutes the claim's
"registered as neither kind" for self-contained functions. -/
theorem identifyWrappers_selfcontained_counterexample :
    (∀ sc ∈ scopesOf c7Run.1 c7Run.2, sc.unlocked = true) ∧
    ((identifyWrappers [("p.T:F", c7Run.1)] c7Run.2
        [("p.T:F", c7Body)]).get "p.T:F").map WrapperMethod.kind =
      some WrapperKind.unlock := by
  have hrun : c7Run = (⟨[], [], [0]⟩,
      [⟨"s.m", 11,
        [.stmt (.exprStmt
          (.callE 12 (.selE (.selE (.ident "s") "m") "Unlock") [] none))],
        true, none⟩]) := by
    simp [c7Run, analyzeDirectLocks, c7Body, newLockTracker, trackList,
      track, trackNested, trackLockStep, trackDeferStep, trackUnlockStep,
      addStatementToOngoing, addToOngoing, scopeAdd, modifyScope, getScope,
      subjectForLockCallStmt, subjectForUnlockCallStmt, subjectForCallStmt,
      subjectForCall, subjectForDeferUnlockCallStmt, strExpr, lockMethods,
      unlockMethods, List.lookup, eraseSel, markUnlocked, endBlock,
      newMutexScope, stmtPos, exprPos]
  rw [hrun]
  constructor
  · intro sc hsc
    simp [scopesOf, getScope] at hsc
    rw [hsc]
  · simp [identifyWrappers, identifyLockWrappers, identifyUnlockWrappers,
      WrapperRegistry.register, WrapperRegistry.get, scopesOf, getScope,
      firstLockWrapperScope, getUnlockOnlyField, getUnlockOnlyFieldLoop,
      splitSelector, splitSelectorAux, c7Body, subjectForLockCallStmt,
      subjectForUnlockCallStmt, subjectForCallStmt, subjectForCall,
      strExpr, lockMethods, unlockMethods, List.lookup, stmtPos, exprPos]

/-- **C7 (amended).** `IdentifyWrappers` registers a function as a lock
wrapper only if one of its collected finished scopes is not unlocked (so
a self-contained function is never a lock wrapper); an entry made by the
lock pass survives the unlock pass untouched, so a lock wrapper is never
also an unlock wrapper and the registry maps each FQN to exactly one
`WrapperMethod`; and a self-contained function is registered as neither
kind *provided* one of its acquire calls appears among the top-level
statements of its body — the unlock-only scan reads only the direct
statement list, which is what the counterexample exploits. -/
theorem identifyWrappers_classification
    (scopes : List (FQN × LockTracker)) (h : Heap)
    (funcs : List (FQN × List MStmt)) (fqn : FQN) :
    (∀ w, (identifyWrappers scopes h funcs).get fqn = some w →
      w.kind = .lock →
      ∃ p ∈ scopes, p.1 = fqn ∧ ∃ sc ∈ scopesOf p.2 h,
        sc.unlocked = false ∧ (splitSelector sc.selector).2 ≠ "") ∧
    (∀ w, (identifyLockWrappers ⟨[]⟩ scopes h).get fqn = some w →
      (identifyWrappers scopes h funcs).get fqn = some w) ∧
    ((∀ p ∈ scopes, p.1 = fqn → ∀ sc ∈ scopesOf p.2 h, sc.unlocked = true) →
      (∀ q ∈ funcs, q.1 = fqn →
        ∃ s ∈ q.2, (subjectForLockCallStmt s).isSome = true) →
      (identifyWrappers scopes h funcs).get fqn = none) := by
  refine ⟨?_, ?_, ?_⟩
  · intro w hg hk
    rcases identifyUnlockWrappers_get hg with hg' | hk'
    · rcases identifyLockWrappers_get hg' with hg'' | ⟨_, hex⟩
      · simp [WrapperRegistry.get, List.lookup] at hg''
      · exact hex
    · rw [hk] at hk'; cases hk'
  · intro w hg
    exact identifyUnlockWrappers_preserve hg
  · intro hall hlock
    refine identifyUnlockWrappers_get_none ?_ ?_
    · refine identifyLockWrappers_get_none ?_ ?_
      · simp [WrapperRegistry.get, List.lookup]
      · intro p hp he
        exact firstLockWrapperScope_none (hall p hp he)
    · intro q hq he
      exact getUnlockOnlyField_of_lock (hlock q hq he)

/-- Witness for the amended C7 theorem: one self-contained function whose
lock call is top-level (`Lock` then a deferred `Unlock`): its tracker
scope is unlocked, and the registry ends with no entry for it. -/
theorem identifyWrappers_classification_witness :
    (identifyWrappers [("p.T:G", ⟨[], [], [0]⟩)]
        [⟨"s.m", 4, [], true, none⟩]
        [("p.T:G",
          [.exprStmt (.callE 4 (.selE (.selE (.ident "s") "m") "Lock") []
            none),
          .deferStmt (.callE 5 (.selE (.selE (.ident "s") "m") "Unlock") []
            none)])]).get "p.T:G" = none := by
  refine (identifyWrappers_classification _ _ _ "p.T:G").2.2 ?_ ?_
  · intro p hp he
    rcases List.mem_singleton.mp hp with rfl
    intro sc hsc
    rcases List.mem_singleton.mp hsc with rfl
    rfl
  · intro q hq he
    rcases List.mem_singleton.mp hq with rfl
    exact ⟨_, List.mem_cons_self _ _, rfl⟩

/-- Ongoing-map consistency of the branch tracker: every entry's stored
`BranchLockInfo` carries the selector it is keyed by (every insertion in
the source sets both from the same string). -/
def btConsistent (t : BTState) : Prop :=
  ∀ p ∈ t.ongoing, (p : String × BranchLockInfo).2.selector = p.1

/-- The single-step contract of the branch tracker used for C6: assuming
the state is consistent and `sel` has a registered deferred release, the
result is consistent, the deferred release survives (defers are only ever
added to), and every error present afterwards either was already there or
is for a different selector than `sel`. -/
def BTStep (sel : String) (t t' : BTState) : Prop :=
  btConsistent t → sel ∈ t.defers →
    btConsistent t' ∧ sel ∈ t'.defers ∧
      ∀ e ∈ t'.errors, e ∈ t.errors ∨ e.lockInfo.selector ≠ sel

/-- `BTStep` is reflexive. -/
theorem btStep_refl (sel : String) (t : BTState) : BTStep sel t t :=
  fun hc hd => ⟨hc, hd, fun _ he => Or.inl he⟩

/-- `BTStep` composes. -/
theorem btStep_trans {sel : String} {t1 t2 t3 : BTState}
    (h12 : BTStep sel t1 t2) (h23 : BTStep sel t2 t3) :
    BTStep sel t1 t3 := by
  intro hc hd
  obtain ⟨hc2, hd2, he2⟩ := h12 hc hd
  obtain ⟨hc3, hd3, he3⟩ := h23 hc2 hd2
  refine ⟨hc3, hd3, fun e he => ?_⟩
  rcases he3 e he with he' | hne
  · exact he2 e he'
  · exact Or.inr hne

/-- Adopting a branch's errors while keeping the parent's maps satisfies
the step contract when the branch itself did (this is exactly the Go
clone: shared error sink, branch-local maps discarded). -/
theorem btStep_adoptErrors {sel : String} {t tb : BTState}
    (h : BTStep sel t tb) : BTStep sel t { t with errors := tb.errors } := by
  intro hc hd
  obtain ⟨_, _, he⟩ := h hc hd
  exact ⟨hc, hd, he⟩

/-- Inserting an ongoing entry keyed by its own selector. -/
theorem btStep_insertOngoing (sel : String) (t : BTState) (k : String)
    (pos : Nat) (w : Option WrapperInfo) :
    BTStep sel t
      { t with ongoing := btInsertOngoing t.ongoing k ⟨k, pos, w⟩ } := by
  intro hc hd
  refine ⟨?_, hd, fun _ he => Or.inl he⟩
  intro p hp
  unfold btInsertOngoing at hp
  by_cases hx : (List.lookup k t.ongoing).isSome
  · rw [if_pos hx] at hp
    exact hc p hp
  · rw [if_neg hx] at hp
    rcases List.mem_append.mp hp with hp | hp
    · exact hc p hp
    · rcases List.mem_singleton.mp hp with rfl
      rfl

/-- Deleting an ongoing entry. -/
theorem btStep_eraseOngoing (sel : String) (t : BTState) (k : String) :
    BTStep sel t { t with ongoing := btEraseOngoing t.ongoing k } :=
  fun hc hd =>
    ⟨fun p hp => hc p (List.mem_of_mem_filter hp), hd,
      fun _ he => Or.inl he⟩

/-- Registering a deferred release. -/
theorem btStep_addDefer (sel : String) (t : BTState) (s : String) :
    BTStep sel t (btAddDefer t s) := by
  intro hc hd
  unfold btAddDefer
  by_cases hx : t.defers.contains s = true
  · rw [if_pos hx]
    exact ⟨hc, hd, fun _ he => Or.inl he⟩
  · rw [if_neg hx]
    exact ⟨hc, List.mem_append_left _ hd, fun _ he => Or.inl he⟩

/-- The direct-acquisition step satisfies the contract. -/
theorem btStep_lockStep (sel : String) (t : BTState) (stmt : MStmt) :
    BTStep sel t (btLockStep t stmt) := by
  unfold btLockStep
  cases subjectForLockCallStmt stmt with
  | none => exact btStep_refl sel t
  | some e => exact btStep_insertOngoing sel t (strExpr e) (stmtPos stmt) none

/-- The direct deferred-release step satisfies the contract. -/
theorem btStep_deferStep (sel : String) (t : BTState) (stmt : MStmt) :
    BTStep sel t (btDeferStep t stmt) := by
  unfold btDeferStep
  cases subjectForDeferUnlockCallStmt stmt with
  | none => exact btStep_refl sel t
  | some e => exact btStep_addDefer sel t (strExpr e)

/-- The direct-release step satisfies the contract. -/
theorem btStep_unlockStep (sel : String) (t : BTState) (stmt : MStmt) :
    BTStep sel t (btUnlockStep t stmt) := by
  unfold btUnlockStep
  cases subjectForUnlockCallStmt stmt with
  | none => exact btStep_refl sel t
  | some e => exact btStep_eraseOngoing sel t (strExpr e)

/-- The wrapper-acquisition check satisfies the contract. -/
theorem btStep_checkWrapperLockCall (sel : String)
    (reg : Option WrapperRegistry) (t : BTState) (stmt : MStmt) :
    BTStep sel t (btCheckWrapperLockCall reg t stmt) := by
  unfold btCheckWrapperLockCall
  repeat' split
  all_goals
    first
      | exact btStep_refl sel t
      | exact btStep_insertOngoing sel t _ _ _

/-- The wrapper-release check satisfies the contract. -/
theorem btStep_checkWrapperUnlockCall (sel : String)
    (reg : Option WrapperRegistry) (t : BTState) (stmt : MStmt) :
    BTStep sel t (btCheckWrapperUnlockCall reg t stmt) := by
  unfold btCheckWrapperUnlockCall
  repeat' split
  all_goals
    first
      | exact btStep_refl sel t
      | exact btStep_eraseOngoing sel t _

/-- The deferred wrapper-release check satisfies the contract. -/
theorem btStep_checkDeferredWrapperUnlock (sel : String)
    (reg : Option WrapperRegistry) (t : BTState) (stmt : MStmt) :
    BTStep sel t (btCheckDeferredWrapperUnlock reg t stmt) := by
  unfold btCheckDeferredWrapperUnlock
  repeat' split
  all_goals
    first
      | exact btStep_refl sel t
      | exact btStep_addDefer sel t _

/-- The return check satisfies the contract: every error it emits is for
a selector that has no deferred release at the return, so never for one
with a registered deferred release. -/
theorem btStep_checkReturn (sel : String) (t : BTState) (retPos : Nat) :
    BTStep sel t (btCheckReturnWithLocks t retPos) := by
  intro hc hd
  refine ⟨hc, hd, ?_⟩
  intro e he
  unfold btCheckReturnWithLocks at he
  rcases List.mem_append.mp he with he | he
  · exact Or.inl he
  · right
    obtain ⟨p, hp, rfl⟩ := List.mem_map.mp he
    have hpf := List.mem_filter.mp hp
    have hnd : p.1 ∉ t.defers := by simpa using hpf.2
    have hsel : p.2.selector = p.1 := hc p hpf.1
    intro heq
    exact hnd (hsel ▸ heq ▸ hd)

mutual

/-- `analyzeStmt` satisfies the step contract. -/
theorem btAnalyzeStmt_step (sel : String) (reg : Option WrapperRegistry)
    (t : BTState) (stmt : MStmt) :
    BTStep sel t (btAnalyzeStmt reg t stmt) := by
  rw [btAnalyzeStmt.eq_def]
  have hpre : BTStep sel t
      (btCheckWrapperUnlockCall reg
        (btUnlockStep
          (btCheckDeferredWrapperUnlock reg
            (btDeferStep (btCheckWrapperLockCall reg (btLockStep t stmt)
              stmt) stmt) stmt) stmt) stmt) :=
    btStep_trans (btStep_lockStep sel t stmt)
      (btStep_trans (btStep_checkWrapperLockCall sel reg _ stmt)
        (btStep_trans (btStep_deferStep sel _ stmt)
          (btStep_trans (btStep_checkDeferredWrapperUnlock sel reg _ stmt)
            (btStep_trans (btStep_unlockStep sel _ stmt)
              (btStep_checkWrapperUnlockCall sel reg _ stmt)))))
  cases hr : btReturnPos stmt with
  | some pos =>
    exact btStep_trans hpre (btStep_checkReturn sel _ pos)
  | none =>
    exact btStep_trans hpre (btAnalyzeNested_step sel reg _ stmt)
termination_by (sizeOf stmt, 1)
decreasing_by all_goals (simp_wf <;> omega)

/-- `analyzeNestedStmt` satisfies the step contract. -/
theorem btAnalyzeNested_step (sel : String) (reg : Option WrapperRegistry)
    (t : BTState) (stmt : MStmt) :
    BTStep sel t (btAnalyzeNested reg t stmt) := by
  rw [btAnalyzeNested.eq_def]
  cases stmt with
  | ifStmt init cond body els =>
    have h1 : BTStep sel t
        (match init with
          | some i => btAnalyzeStmt reg t i
          | none => t) := by
      cases init with
      | some i => exact btAnalyzeStmt_step sel reg t i
      | none => exact btStep_refl sel t
    refine btStep_trans h1 ?_
    set t1 := match init with
      | some i => btAnalyzeStmt reg t i
      | none => t with ht1
    have h2 : BTStep sel t1 { t1 with
        errors := (btAnalyzeStmts reg t1 body).errors } :=
      btStep_adoptErrors (btAnalyzeStmts_step sel reg t1 body)
    cases els with
    | none => exact h2
    | some e =>
      refine btStep_trans h2 ?_
      set t2 := { t1 with
        errors := (btAnalyzeStmts reg t1 body).errors } with ht2
      cases e with
      | blockStmt l =>
        exact btStep_adoptErrors (btAnalyzeStmts_step sel reg t2 l)
      | ifStmt i c b el =>
        exact btStep_adoptErrors
          (btAnalyzeStmt_step sel reg t2 (.ifStmt i c b el))
      | exprStmt e' => exact btStep_adoptErrors (btStep_refl sel t2)
      | deferStmt c => exact btStep_adoptErrors (btStep_refl sel t2)
      | goStmt c => exact btStep_adoptErrors (btStep_refl sel t2)
      | returnStmt p rs => exact btStep_adoptErrors (btStep_refl sel t2)
      | assignStmt l r => exact btStep_adoptErrors (btStep_refl sel t2)
      | forStmt i c p b => exact btStep_adoptErrors (btStep_refl sel t2)
      | rangeStmt x b => exact btStep_adoptErrors (btStep_refl sel t2)
      | switchStmt i tg b => exact btStep_adoptErrors (btStep_refl sel t2)
      | typeSwitchStmt i a b =>
        exact btStep_adoptErrors (btStep_refl sel t2)
      | selectStmt b => exact btStep_adoptErrors (btStep_refl sel t2)
      | caseClause b => exact btStep_adoptErrors (btStep_refl sel t2)
      | commClause b => exact btStep_adoptErrors (btStep_refl sel t2)
      | otherStmt => exact btStep_adoptErrors (btStep_refl sel t2)
  | forStmt init cond post body =>
    have h1 : BTStep sel t
        (match init with
          | some i => btAnalyzeStmt reg t i
          | none => t) := by
      cases init with
      | some i => exact btAnalyzeStmt_step sel reg t i
      | none => exact btStep_refl sel t
    exact btStep_trans h1
      (btStep_adoptErrors (btAnalyzeStmts_step sel reg _ body))
  | rangeStmt x body =>
    exact btStep_adoptErrors (btAnalyzeStmts_step sel reg t body)
  | switchStmt init tag body =>
    have h1 : BTStep sel t
        (match init with
          | some i => btAnalyzeStmt reg t i
          | none => t) := by
      cases init with
      | some i => exact btAnalyzeStmt_step sel reg t i
      | none => exact btStep_refl sel t
    exact btStep_trans h1 (btAnalyzeClauses_step sel reg _ body)
  | typeSwitchStmt init assign body =>
    have h1 : BTStep sel t
        (match init with
          | some i => btAnalyzeStmt reg t i
          | none => t) := by
      cases init with
      | some i => exact btAnalyzeStmt_step sel reg t i
      | none => exact btStep_refl sel t
    exact btStep_trans h1 (btAnalyzeClauses_step sel reg _ body)
  | selectStmt body => exact btAnalyzeCommClauses_step sel reg t body
  | blockStmt body => exact btAnalyzeStmts_step sel reg t body
  | exprStmt e => exact btStep_refl sel t
  | deferStmt c => exact btStep_refl sel t
  | goStmt c => exact btStep_refl sel t
  | returnStmt p rs => exact btStep_refl sel t
  | assignStmt l r => exact btStep_refl sel t
  | caseClause b => exact btStep_refl sel t
  | commClause b => exact btStep_refl sel t
  | otherStmt => exact btStep_refl sel t
termination_by (sizeOf stmt, 0)
decreasing_by all_goals (simp_wf <;> omega)

/-- `AnalyzeStatements` satisfies the step contract. -/
theorem btAnalyzeStmts_step (sel : String) (reg : Option WrapperRegistry)
    (t : BTState) (stmts : List MStmt) :
    BTStep sel t (btAnalyzeStmts reg t stmts) := by
  rw [btAnalyzeStmts.eq_def]
  cases stmts with
  | nil => exact btStep_refl sel t
  | cons s rest =>
    exact btStep_trans (btAnalyzeStmt_step sel reg t s)
      (btAnalyzeStmts_step sel reg _ rest)
termination_by (sizeOf stmts, 0)
decreasing_by all_goals (simp_wf <;> omega)

/-- The switch-clause loop satisfies the step contract. -/
theorem btAnalyzeClauses_step (sel : String) (reg : Option WrapperRegistry)
    (t : BTState) (clauses : List MStmt) :
    BTStep sel t (btAnalyzeClauses reg t clauses) := by
  rw [btAnalyzeClauses.eq_def]
  cases clauses with
  | nil => exact btStep_refl sel t
  | cons c rest =>
    have hrest : ∀ t' : BTState, BTStep sel t' (btAnalyzeClauses reg t' rest) :=
      fun t' => btAnalyzeClauses_step sel reg t' rest
    cases c with
    | caseClause body =>
      exact btStep_trans
        (btStep_adoptErrors (btAnalyzeStmts_step sel reg t body)) (hrest _)
    | exprStmt e => exact hrest t
    | deferStmt c => exact hrest t
    | goStmt c => exact hrest t
    | returnStmt p rs => exact hrest t
    | assignStmt l r => exact hrest t
    | ifStmt i cd b e => exact hrest t
    | forStmt i cd p b => exact hrest t
    | rangeStmt x b => exact hrest t
    | switchStmt i tg b => exact hrest t
    | typeSwitchStmt i a b => exact hrest t
    | selectStmt b => exact hrest t
    | commClause b => exact hrest t
    | blockStmt b => exact hrest t
    | otherStmt => exact hrest t
termination_by (sizeOf clauses, 1)
decreasing_by all_goals (simp_wf <;> omega)

/-- The select-clause loop satisfies the step contract. -/
theorem btAnalyzeCommClauses_step (sel : String)
    (reg : Option WrapperRegistry) (t : BTState) (clauses : List MStmt) :
    BTStep sel t (btAnalyzeCommClauses reg t clauses) := by
  rw [btAnalyzeCommClauses.eq_def]
  cases clauses with
  | nil => exact btStep_refl sel t
  | cons c rest =>
    have hrest : ∀ t' : BTState,
        BTStep sel t' (btAnalyzeCommClauses reg t' rest) :=
      fun t' => btAnalyzeCommClauses_step sel reg t' rest
    cases c with
    | commClause body =>
      exact btStep_trans
        (btStep_adoptErrors (btAnalyzeStmts_step sel reg t body)) (hrest _)
    | exprStmt e => exact hrest t
    | deferStmt c => exact hrest t
    | goStmt c => exact hrest t
    | returnStmt p rs => exact hrest t
    | assignStmt l r => exact hrest t
    | ifStmt i cd b e => exact hrest t
    | forStmt i cd p b => exact hrest t
    | rangeStmt x b => exact hrest t
    | switchStmt i tg b => exact hrest t
    | typeSwitchStmt i a b => exact hrest t
    | selectStmt b => exact hrest t
    | caseClause b => exact hrest t
    | blockStmt b => exact hrest t
    | otherStmt => exact hrest t
termination_by (sizeOf clauses, 1)
decreasing_by all_goals (simp_wf <;> omega)

end

/-- **C6.** At every return statement the branch tracker emits a
`MissingUnlock` for exactly those ongoing selectors without an entry in
`defers`, each carrying the position and wrapper annotation stored for
the ongoing acquisition (first conjunct, a full characterization of
`checkReturnWithLocks`); and once a deferred release for a selector has
been registered on a path — directly, via a deferred closure, or via a
deferred unlock-wrapper call, all of which only ever add to `defers` —
no later return reached by the analysis on that path produces a
`MissingUnlock` for that selector (second conjunct, for consistent
states). -/
theorem branchTracker_return_errors :
    (∀ (t : BTState) (retPos : Nat) (e : MissingUnlock),
      e ∈ (btCheckReturnWithLocks t retPos).errors ↔
        e ∈ t.errors ∨ ∃ p ∈ t.ongoing, p.1 ∉ t.defers ∧
          e = ⟨p.2, retPos⟩) ∧
    (∀ (reg : Option WrapperRegistry) (stmts : List MStmt) (t : BTState)
        (sel : String), btConsistent t → sel ∈ t.defers →
      ∀ e ∈ (btAnalyzeStmts reg t stmts).errors,
        e ∈ t.errors ∨ e.lockInfo.selector ≠ sel) := by
  constructor
  · intro t retPos e
    unfold btCheckReturnWithLocks
    simp only [List.mem_append, List.mem_map, List.mem_filter]
    constructor
    · rintro (he | ⟨p, ⟨hp, hf⟩, rfl⟩)
      · exact Or.inl he
      · exact Or.inr ⟨p, hp, by simpa using hf, rfl⟩
    · rintro (he | ⟨p, hp, hnd, rfl⟩)
      · exact Or.inl he
      · exact Or.inr ⟨p, ⟨hp, by simpa using hnd⟩, rfl⟩
  · intro reg stmts t sel hc hd
    exact (btAnalyzeStmts_step sel reg t stmts hc hd).2.2

/-- Concrete branch-tracker state for the C6 witness: `s.m` is ongoing
with a deferred release registered, `x.y` is ongoing without one. -/
def btW : BTState :=
  ⟨[("s.m", ⟨"s.m", 10, none⟩), ("x.y", ⟨"x.y", 3, none⟩)], ["s.m"], []⟩

/-- Witness for C6 at a concrete state and a single return: the
hypotheses hold by computation, and every emitted error (here the one for
`x.y`) is for a selector other than the deferred `s.m`. -/
theorem branchTracker_return_errors_witness :
    btConsistent btW ∧ "s.m" ∈ btW.defers ∧
    (∀ e ∈ (btAnalyzeStmts none btW [.returnStmt 40 []]).errors,
      e ∈ btW.errors ∨ e.lockInfo.selector ≠ "s.m") :=
  ⟨by unfold btConsistent; decide, by decide,
    branchTracker_return_errors.2 none [.returnStmt 40 []] btW "s.m"
      (by unfold btConsistent; decide) (by decide)⟩

mutual

/-- Every checked call is a call of the node. -/
theorem checkedCalls_subset (skip : List Nat) (n : GNode) :
    ∀ p ∈ checkedCalls skip n, p ∈ allCalls n := by
  cases n with
  | callN pos fn args =>
    intro p hp
    unfold checkedCalls at hp
    unfold allCalls
    rcases List.mem_cons.mp hp with rfl | hp
    · exact List.mem_cons_self _ _
    · rcases List.mem_append.mp hp with hp | hp
      · exact List.mem_cons_of_mem _
          (List.mem_append_left _ (checkedCalls_subset skip fn p hp))
      · exact List.mem_cons_of_mem _
          (List.mem_append_right _ (checkedCallsList_subset skip args p hp))
  | funcLitN id body =>
    intro p hp
    unfold checkedCalls at hp
    unfold allCalls
    by_cases hc : skip.contains id = true
    · rw [if_pos hc] at hp
      simp at hp
    · rw [if_neg hc] at hp
      exact checkedCallsList_subset skip body p hp
  | goN c =>
    intro p hp
    unfold checkedCalls at hp
    simp at hp
  | retN rs =>
    intro p hp
    unfold checkedCalls at hp
    unfold allCalls
    exact checkedCallsList_subset skip rs p hp
  | assignN l r =>
    intro p hp
    unfold checkedCalls at hp
    unfold allCalls
    rcases List.mem_append.mp hp with hp | hp
    · exact List.mem_append_left _ (checkedCallsList_subset skip l p hp)
    · exact List.mem_append_right _ (checkedCallsList_subset skip r p hp)
  | otherN cs =>
    intro p hp
    unfold checkedCalls at hp
    unfold allCalls
    exact checkedCallsList_subset skip cs p hp
  | leafN =>
    intro p hp
    unfold checkedCalls at hp
    simp at hp

/-- List version of `checkedCalls_subset`. -/
theorem checkedCallsList_subset (skip : List Nat) (l : List GNode) :
    ∀ p ∈ checkedCallsList skip l, p ∈ allCallsList l := by
  cases l with
  | nil =>
    intro p hp
    unfold checkedCallsList at hp
    simp at hp
  | cons n rest =>
    intro p hp
    unfold checkedCallsList at hp
    unfold allCallsList
    rcases List.mem_append.mp hp with hp | hp
    · exact List.mem_append_left _ (checkedCalls_subset skip n p hp)
    · exact List.mem_append_right _ (checkedCallsList_subset skip rest p hp)

end

mutual

/-- Every excluded call is a call of the node. -/
theorem exCalls_subset (n : GNode) : ∀ p ∈ exCalls n, p ∈ allCalls n := by
  cases n with
  | callN pos fn args =>
    intro p hp
    unfold exCalls at hp
    unfold allCalls
    rcases List.mem_append.mp hp with hp | hp
    · exact List.mem_cons_of_mem _
        (List.mem_append_left _ (exCalls_subset fn p hp))
    · exact List.mem_cons_of_mem _
        (List.mem_append_right _ (exCallsArgs_subset args p hp))
  | funcLitN id body =>
    intro p hp
    unfold exCalls at hp
    unfold allCalls
    exact exCallsList_subset body p hp
  | goN c =>
    intro p hp
    unfold exCalls at hp
    unfold allCalls
    exact hp
  | retN rs =>
    intro p hp
    unfold exCalls at hp
    unfold allCalls
    exact exCallsArgs_subset rs p hp
  | assignN l r =>
    intro p hp
    unfold exCalls at hp
    unfold allCalls
    rcases List.mem_append.mp hp with hp | hp
    · exact List.mem_append_left _ (exCallsList_subset l p hp)
    · exact List.mem_append_right _ (exCallsArgs_subset r p hp)
  | otherN cs =>
    intro p hp
    unfold exCalls at hp
    unfold allCalls
    exact exCallsList_subset cs p hp
  | leafN =>
    intro p hp
    unfold exCalls at hp
    simp at hp

/-- Head version of `exCalls_subset` for escaping positions. -/
theorem exCallsHead_subset (a : GNode) :
    ∀ p ∈ exCallsHead a, p ∈ allCalls a := by
  cases a with
  | funcLitN id body =>
    intro p hp
    unfold exCallsHead at hp
    unfold allCalls
    exact hp
  | callN pos fn args =>
    intro p hp
    unfold exCallsHead at hp
    exact exCalls_subset _ p hp
  | goN c =>
    intro p hp
    unfold exCallsHead at hp
    exact exCalls_subset _ p hp
  | retN rs =>
    intro p hp
    unfold exCallsHead at hp
    exact exCalls_subset _ p hp
  | assignN l r =>
    intro p hp
    unfold exCallsHead at hp
    exact exCalls_subset _ p hp
  | otherN cs =>
    intro p hp
    unfold exCallsHead at hp
    exact exCalls_subset _ p hp
  | leafN =>
    intro p hp
    unfold exCallsHead at hp
    exact exCalls_subset _ p hp

/-- Escaping-position version of `exCalls_subset`. -/
theorem exCallsArgs_subset (l : List GNode) :
    ∀ p ∈ exCallsArgs l, p ∈ allCallsList l := by
  cases l with
  | nil =>
    intro p hp
    unfold exCallsArgs at hp
    simp at hp
  | cons a rest =>
    intro p hp
    unfold exCallsArgs at hp
    unfold allCallsList
    rcases List.mem_append.mp hp with hp | hp
    · exact List.mem_append_left _ (exCallsHead_subset a p hp)
    · exact List.mem_append_right _ (exCallsArgs_subset rest p hp)

/-- List version of `exCalls_subset`. -/
theorem exCallsList_subset (l : List GNode) :
    ∀ p ∈ exCallsList l, p ∈ allCallsList l := by
  cases l with
  | nil =>
    intro p hp
    unfold exCallsList at hp
    simp at hp
  | cons n rest =>
    intro p hp
    unfold exCallsList at hp
    unfold allCallsList
    rcases List.mem_append.mp hp with hp | hp
    · exact List.mem_append_left _ (exCalls_subset n p hp)
    · exact List.mem_append_right _ (exCallsList_subset rest p hp)

end

mutual

/-- The central C3 lemma: when the skip set covers the collected literal
ids and the node's call positions are pairwise distinct (as Go AST node
identities are), no excluded call is checked. -/
theorem exCalls_not_checked (skip : List Nat) (n : GNode) :
    collectSkip n ⊆ skip → (allCalls n).Nodup →
    ∀ p ∈ exCalls n, p ∉ checkedCalls skip n := by
  cases n with
  | callN pos fn args =>
    intro hsub hnd p hp hmem
    unfold exCalls at hp
    unfold checkedCalls at hmem
    unfold allCalls at hnd
    unfold collectSkip at hsub
    obtain ⟨hpos, hnd2⟩ := List.nodup_cons.mp hnd
    obtain ⟨ndf, nda, disj⟩ := List.nodup_append.mp hnd2
    have hsubfn : collectSkip fn ⊆ skip := fun i hi =>
      hsub (List.mem_append_right _ (List.mem_append_left _ hi))
    have hsubargs : collectSkipList args ⊆ skip := fun i hi =>
      hsub (List.mem_append_right _ (List.mem_append_right _ hi))
    have hlit : litIds args ⊆ skip := fun i hi =>
      hsub (List.mem_append_left _ hi)
    rcases List.mem_append.mp hp with hp | hp
    · have hpall : p ∈ allCalls fn := exCalls_subset fn p hp
      rcases List.mem_cons.mp hmem with rfl | hmem
      · exact hpos (List.mem_append_left _ hpall)
      · rcases List.mem_append.mp hmem with hm | hm
        · exact exCalls_not_checked skip fn hsubfn ndf p hp hm
        · exact disj hpall (checkedCallsList_subset skip args p hm)
    · have hpall : p ∈ allCallsList args := exCallsArgs_subset args p hp
      rcases List.mem_cons.mp hmem with rfl | hmem
      · exact hpos (List.mem_append_right _ hpall)
      · rcases List.mem_append.mp hmem with hm | hm
        · exact disj (checkedCalls_subset skip fn p hm) hpall
        · exact exCallsArgs_not_checked skip args hlit hsubargs nda p hp hm
  | funcLitN id body =>
    intro hsub hnd p hp hmem
    unfold exCalls at hp
    unfold checkedCalls at hmem
    unfold allCalls at hnd
    unfold collectSkip at hsub
    by_cases hc : skip.contains id = true
    · rw [if_pos hc] at hmem
      simp at hmem
    · rw [if_neg hc] at hmem
      exact exCallsList_not_checked skip body hsub hnd p hp hmem
  | goN c =>
    intro hsub hnd p hp hmem
    unfold checkedCalls at hmem
    simp at hmem
  | retN rs =>
    intro hsub hnd p hp hmem
    unfold exCalls at hp
    unfold checkedCalls at hmem
    unfold allCalls at hnd
    unfold collectSkip at hsub
    exact exCallsArgs_not_checked skip rs
      (fun i hi => hsub (List.mem_append_left _ hi))
      (fun i hi => hsub (List.mem_append_right _ hi)) hnd p hp hmem
  | assignN l r =>
    intro hsub hnd p hp hmem
    unfold exCalls at hp
    unfold checkedCalls at hmem
    unfold allCalls at hnd
    unfold collectSkip at hsub
    obtain ⟨ndl, ndr, disj⟩ := List.nodup_append.mp hnd
    have hsubl : collectSkipList l ⊆ skip := fun i hi =>
      hsub (List.mem_append_right _ (List.mem_append_left _ hi))
    have hsubr : collectSkipList r ⊆ skip := fun i hi =>
      hsub (List.mem_append_right _ (List.mem_append_right _ hi))
    have hlit : litIds r ⊆ skip := fun i hi =>
      hsub (List.mem_append_left _ hi)
    rcases List.mem_append.mp hp with hp | hp
    · have hpall := exCallsList_subset l p hp
      rcases List.mem_append.mp hmem with hm | hm
      · exact exCallsList_not_checked skip l hsubl ndl p hp hm
      · exact disj hpall (checkedCallsList_subset skip r p hm)
    · have hpall := exCallsArgs_subset r p hp
      rcases List.mem_append.mp hmem with hm | hm
      · exact disj (checkedCallsList_subset skip l p hm) hpall
      · exact exCallsArgs_not_checked skip r hlit hsubr ndr p hp hm
  | otherN cs =>
    intro hsub hnd p hp hmem
    unfold exCalls at hp
    unfold checkedCalls at hmem
    unfold allCalls at hnd
    unfold collectSkip at hsub
    exact exCallsList_not_checked skip cs hsub hnd p hp hmem
  | leafN =>
    intro hsub hnd p hp hmem
    unfold exCalls at hp
    simp at hp
termination_by (sizeOf n, 0)
decreasing_by all_goals (simp_wf <;> first | omega | (apply Prod.Lex.right; omega) | (apply Prod.Lex.left; omega))

/-- Head version: a function literal in an escaping position has its id
in the skip set, so its whole subtree is pruned. -/
theorem exCallsHead_not_checked (skip : List Nat) (a : GNode) :
    (∀ id body, a = .funcLitN id body → id ∈ skip) →
    collectSkip a ⊆ skip → (allCalls a).Nodup →
    ∀ p ∈ exCallsHead a, p ∉ checkedCalls skip a := by
  cases a with
  | funcLitN id body =>
    intro hid hsub hnd p hp hmem
    unfold checkedCalls at hmem
    have hc : skip.contains id = true := List.elem_iff.mpr (hid id body rfl)
    rw [if_pos hc] at hmem
    simp at hmem
  | callN pos fn args =>
    intro hid hsub hnd p hp hmem
    unfold exCallsHead at hp
    exact exCalls_not_checked skip _ hsub hnd p hp hmem
  | goN c =>
    intro hid hsub hnd p hp hmem
    unfold exCallsHead at hp
    exact exCalls_not_checked skip _ hsub hnd p hp hmem
  | retN rs =>
    intro hid hsub hnd p hp hmem
    unfold exCallsHead at hp
    exact exCalls_not_checked skip _ hsub hnd p hp hmem
  | assignN l r =>
    intro hid hsub hnd p hp hmem
    unfold exCallsHead at hp
    exact exCalls_not_checked skip _ hsub hnd p hp hmem
  | otherN cs =>
    intro hid hsub hnd p hp hmem
    unfold exCallsHead at hp
    exact exCalls_not_checked skip _ hsub hnd p hp hmem
  | leafN =>
    intro hid hsub hnd p hp hmem
    unfold exCallsHead at hp
    exact exCalls_not_checked skip _ hsub hnd p hp hmem
termination_by (sizeOf a, 1)
decreasing_by all_goals (simp_wf <;> first | omega | (apply Prod.Lex.right; omega) | (apply Prod.Lex.left; omega))

/-- Escaping-position lists: excluded calls are never checked. -/
theorem exCallsArgs_not_checked (skip : List Nat) (l : List GNode) :
    litIds l ⊆ skip → collectSkipList l ⊆ skip →
    (allCallsList l).Nodup →
    ∀ p ∈ exCallsArgs l, p ∉ checkedCallsList skip l := by
  cases l with
  | nil =>
    intro hlit hsub hnd p hp hmem
    unfold exCallsArgs at hp
    simp at hp
  | cons a rest =>
    intro hlit hsub hnd p hp hmem
    unfold exCallsArgs at hp
    unfold checkedCallsList at hmem
    unfold allCallsList at hnd
    unfold collectSkipList at hsub
    unfold litIds at hlit
    obtain ⟨nd1, nd2, disj⟩ := List.nodup_append.mp hnd
    have hsuba : collectSkip a ⊆ skip := fun i hi =>
      hsub (List.mem_append_left _ hi)
    have hsubrest : collectSkipList rest ⊆ skip := fun i hi =>
      hsub (List.mem_append_right _ hi)
    have hlita : ∀ id body, a = .funcLitN id body → id ∈ skip := by
      intro id body he
      subst he
      exact hlit (List.mem_append_left _ (List.mem_singleton_self id))
    have hlitrest : litIds rest ⊆ skip := fun i hi =>
      hlit (List.mem_append_right _ hi)
    rcases List.mem_append.mp hp with hp | hp
    · have hpall := exCallsHead_subset a p hp
      rcases List.mem_append.mp hmem with hm | hm
      · exact exCallsHead_not_checked skip a hlita hsuba nd1 p hp hm
      · exact disj hpall (checkedCallsList_subset skip rest p hm)
    · have hpall := exCallsArgs_subset rest p hp
      rcases List.mem_append.mp hmem with hm | hm
      · exact disj (checkedCalls_subset skip a p hm) hpall
      · exact exCallsArgs_not_checked skip rest hlitrest hsubrest nd2 p hp hm
termination_by (sizeOf l, 0)
decreasing_by all_goals (simp_wf <;> first | omega | (apply Prod.Lex.right; omega) | (apply Prod.Lex.left; omega))

/-- Plain child lists: excluded calls are never checked. -/
theorem exCallsList_not_checked (skip : List Nat) (l : List GNode) :
    collectSkipList l ⊆ skip → (allCallsList l).Nodup →
    ∀ p ∈ exCallsList l, p ∉ checkedCallsList skip l := by
  cases l with
  | nil =>
    intro hsub hnd p hp hmem
    unfold exCallsList at hp
    simp at hp
  | cons n rest =>
    intro hsub hnd p hp hmem
    unfold exCallsList at hp
    unfold checkedCallsList at hmem
    unfold allCallsList at hnd
    unfold collectSkipList at hsub
    obtain ⟨nd1, nd2, disj⟩ := List.nodup_append.mp hnd
    have hsubn : collectSkip n ⊆ skip := fun i hi =>
      hsub (List.mem_append_left _ hi)
    have hsubrest : collectSkipList rest ⊆ skip := fun i hi =>
      hsub (List.mem_append_right _ hi)
    rcases List.mem_append.mp hp with hp | hp
    · have hpall := exCalls_subset n p hp
      rcases List.mem_append.mp hmem with hm | hm
      · exact exCalls_not_checked skip n hsubn nd1 p hp hm
      · exact disj hpall (checkedCallsList_subset skip rest p hm)
    · have hpall := exCallsList_subset rest p hp
      rcases List.mem_append.mp hmem with hm | hm
      · exact disj (checkedCalls_subset skip n p hm) hpall
      · exact exCallsList_not_checked skip rest hsubrest nd2 p hp hm
termination_by (sizeOf l, 0)
decreasing_by all_goals (simp_wf <;> first | omega | (apply Prod.Lex.right; omega) | (apply Prod.Lex.left; omega))

end

/-- **C3.** When the reentrancy pass scans a scope node, no call is
inspected — hence no Reentrant finding produced — for a call expression
inside a goroutine-spawn statement, nor inside a function literal that
appears as a call argument, a return result, or an assignment right-hand
side (first conjunct, for any node whose call positions are distinct, as
Go AST node identities are); while a directly invoked function literal is
not pruned: the calls of its body are inspected exactly as the traversal
reaches them (second conjunct). -/
theorem reentrancy_scan_exclusions :
    (∀ n : GNode, (allCalls n).Nodup →
      ∀ p ∈ exCalls n, p ∉ checkNode n) ∧
    (∀ (skip : List Nat) (pos id : Nat) (body args : List GNode),
      id ∉ skip →
      checkedCalls skip (.callN pos (.funcLitN id body) args) =
        pos :: (checkedCallsList skip body ++ checkedCallsList skip args)) := by
  constructor
  · intro n hnd p hp
    exact exCalls_not_checked (collectSkip n) n (fun i hi => hi) hnd p hp
  · intro skip pos id body args hid
    have hc : skip.contains id = false := by simpa using hid
    show pos :: (checkedCalls skip (.funcLitN id body) ++
      checkedCallsList skip args) = _
    have hlit : checkedCalls skip (.funcLitN id body) =
        checkedCallsList skip body := by
      unfold checkedCalls
      rw [hc, if_neg Bool.false_ne_true]
    rw [hlit]

/-- The C3 witness node: a call inside a `go` statement (position 3), a
call whose argument is a function literal containing a call (positions 4
and 7), and a directly invoked function literal (positions 1 and 2). -/
def c3Node : GNode :=
  .otherN [.goN (.callN 3 .leafN []),
    .callN 4 .leafN [.funcLitN 9 [.callN 7 .leafN []]],
    .callN 1 (.funcLitN 5 [.callN 2 .leafN []]) []]

/-- Witness for C3 at the concrete node: the go-statement call 3 and the
escaping-literal call 7 are excluded and indeed never checked, while the
directly invoked literal's body call 2 is checked. -/
theorem reentrancy_scan_exclusions_witness :
    (allCalls c3Node).Nodup ∧ 3 ∈ exCalls c3Node ∧ 7 ∈ exCalls c3Node ∧
    3 ∉ checkNode c3Node ∧ 7 ∉ checkNode c3Node ∧
    checkNode c3Node = [4, 1, 2] := by
  have hex : exCalls c3Node = [3, 7] := by
    simp [c3Node, exCalls, exCallsArgs, exCallsHead, exCallsList,
      allCalls, allCallsList]
  exact ⟨by decide, by rw [hex]; decide, by rw [hex]; decide,
    reentrancy_scan_exclusions.1 c3Node (by decide) 3 (by rw [hex]; decide),
    reentrancy_scan_exclusions.1 c3Node (by decide) 7 (by rw [hex]; decide),
    by decide⟩

end Mulint